/-
Verification of the `terr` terrain-generation library.

We give a shallow embedding of the height-grid data model and its
generation/query algorithms, with the generic scalar `F : RealField`
instantiated at `ℚ` (exact arithmetic).  External collaborators (the
`rand` sampling of directions/offsets/distribution values, and the
ncollide triangle/AABB primitives) are passed in as explicit parameters.
Machine integers (`usize`) are modelled as `ℕ`, with wrap-around
`% 2 ^ 64` made explicit at the one place overflow can occur.
-/
import Mathlib

set_option maxRecDepth 4000

namespace Terr

/-- Model of `F::max_value()` for the intended `F = f64` instantiation:
a fixed huge rational standing for `f64::MAX`'s order of magnitude. -/
def Fmax : ℚ := 2 ^ 1024

/-- Model of `F::min_value()`. -/
def Fmin : ℚ := -(2 ^ 1024)

/-- The `f64` constant `std::f64::consts::SQRT_2`, which is the dyadic
rational nearest to `√2`: `6369051672525773 / 2^52`. -/
def SQRT_2 : ℚ := 6369051672525773 / 4503599627370496

/-- `Heightmap<F>` (src/heightmap.rs): a dense grid of `dim.1 * dim.2`
heights in row-major order with physical size, derived per-axis spacing
`len_frac`, and a cached `(min, max)` height range. -/
structure Heightmap where
  dim : ℕ × ℕ
  len_frac : ℚ × ℚ
  size : ℚ × ℚ
  range : ℚ × ℚ
  data : List ℚ
deriving DecidableEq

/-- `Heightmap::get` (src/heightmap.rs:96).  Rust asserts the index is in
bounds and reads `data[cx + cy*dim.0]`; out of bounds is a panic, modelled
by a default of `0` (theorems only use `get` under the bounds). -/
def Heightmap.get (m : Heightmap) (cx cy : ℕ) : ℚ :=
  m.data.getD (cx + cy * m.dim.1) 0

/-- `Heightmap::set` (src/heightmap.rs:106): widens the cached range to
cover `val` and stores it at `cx + cy*dim.0`. -/
def Heightmap.set (m : Heightmap) (cx cy : ℕ) (val : ℚ) : Heightmap :=
  { m with
    range := (min m.range.1 val, max m.range.2 val),
    data := m.data.set (cx + cy * m.dim.1) val }

/-- `Heightmap::coord_of` (src/heightmap.rs:65): physical coordinates of a
vertex, `index * len_frac` per axis. -/
def Heightmap.coord_of (m : Heightmap) (cx cy : ℕ) : ℚ × ℚ :=
  ((cx : ℚ) * m.len_frac.1, (cy : ℚ) * m.len_frac.2)

/-- `Heightmap::cell_at_coord` (src/heightmap.rs:75).  The Rust `as u32`
cast truncates the non-negative quotient toward zero, modelled by
`Int.floor` followed by `toNat`. -/
def Heightmap.cell_at_coord (m : Heightmap) (x y : ℚ) : Option (ℕ × ℕ) :=
  if 0 ≤ x ∧ x ≤ m.size.1 then
    if 0 ≤ y ∧ y ≤ m.size.2 then
      some ((⌊x / m.len_frac.1⌋).toNat, (⌊y / m.len_frac.2⌋).toNat)
    else none
  else none

/-- Modelled from the spec: `Heightmap::len0` is called by the generation
code but its definition is not under src/; per the spec the grid dimension
is the vertex count per axis, so `len0` is `dim.0`. -/
def Heightmap.len0 (m : Heightmap) : ℕ := m.dim.1

/-- Modelled from the spec: `Heightmap::len1` (missing from src/) is the
vertex count along the second axis. -/
def Heightmap.len1 (m : Heightmap) : ℕ := m.dim.2

/-- Modelled from the spec: `Heightmap::cells` is called by
`Voronoi::apply_to` but not defined under src/; the spec requires that
`apply_to` visit every vertex of the grid, so this returns the vertex
counts `dim`. -/
def Heightmap.cells (m : Heightmap) : ℕ × ℕ := m.dim

/-- The free function `range` (src/heightmap.rs:236): full linear scan
folding `min`/`max` from `F::max_value()`/`F::min_value()`. -/
def range_scan (s : List ℚ) : ℚ × ℚ :=
  (s.foldl min Fmax, s.foldl max Fmin)

/-- `Heightmap::new_flat` (src/heightmap.rs:117). -/
def new_flat (dim : ℕ × ℕ) (size : ℚ × ℚ) : Heightmap :=
  { dim := dim,
    len_frac := (size.1 / ((dim.1 - 1 : ℕ) : ℚ), size.2 / ((dim.2 - 1 : ℕ) : ℚ)),
    size := size,
    range := (0, 0),
    data := List.replicate (dim.1 * dim.2) 0 }

/-- Row-major list of all vertex indices `(ix, iy)`, `iy` outer.  This is
the iteration order of the nested loops in `add_surface` and
`Voronoi::apply_to`. -/
def vertList (nx ny : ℕ) : List (ℕ × ℕ) :=
  (List.range ny).flatMap (fun iy => (List.range nx).map (fun ix => (ix, iy)))

/-- Column-major list of all vertex indices `(x, y)`, `x` outer: the
iteration order of `fault_displacement`. -/
def vertListX (nx ny : ℕ) : List (ℕ × ℕ) :=
  (List.range nx).flatMap (fun x => (List.range ny).map (fun y => (x, y)))

/-- `Heightmap::add_surface` (src/heightmap.rs:152): add `mult * surface`
at every vertex, then recompute the cached range by a full scan. -/
def Heightmap.add_surface (m : Heightmap) (surface : ℚ → ℚ → ℚ) (mult : ℚ) : Heightmap :=
  let m' := (vertList m.dim.1 m.dim.2).foldl
    (fun g c =>
      let xy := g.coord_of c.1 c.2
      g.set c.1 c.2 (g.get c.1 c.2 + mult * surface xy.1 xy.2)) m
  { m' with range := range_scan m'.data }

/-! ## Fractal displacement (src/heightmap/displacement.rs)

The caller-supplied `rng`/`distr` pair is modelled as a stream
`samples : ℕ → ℚ` of distribution draws together with a counter of draws
made so far; each `distr.sample(rng)` consumes the next stream element. -/

/-- `displacement::Error`. -/
inductive DispError where
  | NotSquare
  | NotPowerOf2Plus1
deriving DecidableEq

/-- Generator state threaded through a displacement pass: the heightmap
and the index of the next distribution sample. -/
structure GenState where
  m : Heightmap
  k : ℕ

/-- Count of trailing zero bits, with recursion fuel (the bit width). -/
def ctz : ℕ → ℕ → ℕ
  | 0, _ => 0
  | fuel + 1, x => if x % 2 = 1 then 0 else ctz fuel (x / 2) + 1

/-- `usize::trailing_zeros` on a 64-bit target: `64` for `0`. -/
def trailing_zeros64 (x : ℕ) : ℕ :=
  if x = 0 then 64 else ctz 64 x

/-- `2usize.pow e` with release-mode wrap-around semantics (`% 2^64`);
in debug builds the overflowing case `e = 64` panics instead. -/
def powWrap2 (e : ℕ) : ℕ := 2 ^ e % 2 ^ 64

/-- The shared precondition check of `midpoint_displacement`
(src/heightmap/displacement.rs:46-53) and `diamond_square` (127-134):
reject non-square grids, then compare the side length against
`2usize.pow(trailing_zeros(side - 1)) + 1`. -/
def disp_check (nx ny : ℕ) : Option DispError :=
  if nx ≠ ny then some .NotSquare
  else if nx ≠ powWrap2 (trailing_zeros64 (nx - 1)) + 1 then some .NotPowerOf2Plus1
  else none

/-- `mid2` (src/heightmap/displacement.rs:55). -/
def mid2 (a b : ℚ) : ℚ := (a + b) * (1 / 2)

/-- `mid3` (src/heightmap/displacement.rs:136). -/
def mid3 (a b c : ℚ) : ℚ := (a + b + c) * (1 / 3)

/-- `mid4` (src/heightmap/displacement.rs:56/137). -/
def mid4 (a b c d : ℚ) : ℚ := (a + b + c + d) * (1 / 4)

/-- One iteration of the `loop` body of `midpoint_displacement`
(src/heightmap/displacement.rs:70-88) for the quad with lower corner
`(x0, y0)` and side `quad_len`: displace the four edge midpoints from
their adjacent corners and the centre from the fresh midpoints, each plus
`scale = mid_len` times a distribution sample. -/
def md_quad (samples : ℕ → ℚ) (quad_len x0 y0 : ℕ) (s : GenState) : GenState :=
  let mid_len := quad_len / 2
  let scale : ℚ := (mid_len : ℚ)
  let m := s.m
  let h00 := m.get x0 y0
  let h01 := m.get x0 (y0 + quad_len)
  let h10 := m.get (x0 + quad_len) y0
  let h11 := m.get (x0 + quad_len) (y0 + quad_len)
  let h0m := mid2 h00 h01 + scale * samples s.k
  let h1m := mid2 h10 h11 + scale * samples (s.k + 1)
  let hm0 := mid2 h00 h10 + scale * samples (s.k + 2)
  let hm1 := mid2 h01 h11 + scale * samples (s.k + 3)
  let hmm := mid4 h0m h1m hm0 hm1 + scale * samples (s.k + 4)
  let xm := x0 + mid_len
  let ym := y0 + mid_len
  let m := ((((m.set x0 ym h0m).set (x0 + quad_len) ym h1m).set xm y0 hm0).set
      xm (y0 + quad_len) hm1).set xm ym hmm
  ⟨m, s.k + 5⟩

/-- The quad lower corners visited at one level, in loop order (`x`
outer, `y` inner); the `adv` closure stops once the upper corner passes
`size_1`, so each axis takes `size_1 / quad_len` steps. -/
def quad_origins (size_1 quad_len : ℕ) : List (ℕ × ℕ) :=
  (List.range (size_1 / quad_len)).flatMap (fun qx =>
    (List.range (size_1 / quad_len)).map (fun qy => (qx * quad_len, qy * quad_len)))

/-- One subdivision level of `midpoint_displacement`. -/
def md_level (samples : ℕ → ℚ) (size_1 quad_len : ℕ) (s : GenState) : GenState :=
  (quad_origins size_1 quad_len).foldl
    (fun s q => md_quad samples quad_len q.1 q.2 s) s

/-- The level loop `for i in n0..n`, by fuel `n - n0` starting at `i`. -/
def md_levels (samples : ℕ → ℚ) (size_1 n : ℕ) : ℕ → ℕ → GenState → GenState
  | 0, _, s => s
  | fuel + 1, i, s => md_levels samples size_1 n fuel (i + 1)
      (md_level samples size_1 (2 ^ (n - i)) s)

/-- `midpoint_displacement` (src/heightmap/displacement.rs:39-98).
For side lengths that pass the check with `n ≤ 63` the Rust loop and this
model agree; a side-1 grid erroneously passes the check (see
`disp_check`) and then panics (debug) or loops forever (release) in Rust,
where this terminating model returns the grid unchanged. -/
def midpoint_displacement (m : Heightmap) (n0 : ℕ) (samples : ℕ → ℚ) :
    Except DispError Heightmap :=
  match disp_check m.len0 m.len1 with
  | some e => .error e
  | none =>
    let size_1 := m.len0 - 1
    let n := trailing_zeros64 size_1
    .ok (md_levels samples size_1 n (n - n0) n0 ⟨m, 0⟩).m

/-- Main body of the `diamond_square` loop
(src/heightmap/displacement.rs:152-178): displace the quad centre from
the four corners, then the west and south edge midpoints, each from a
3-way average at the domain boundary or a 4-way average with the
already-finalised neighbouring centre otherwise. -/
def ds_quad (samples : ℕ → ℚ) (quad_len x0 y0 : ℕ) (s : GenState) : GenState :=
  let mid_len := quad_len / 2
  let scale : ℚ := (mid_len : ℚ)
  let scale2 : ℚ := scale * SQRT_2
  let m := s.m
  let h00 := m.get x0 y0
  let h01 := m.get x0 (y0 + quad_len)
  let h10 := m.get (x0 + quad_len) y0
  let h11 := m.get (x0 + quad_len) (y0 + quad_len)
  let xm := x0 + mid_len
  let ym := y0 + mid_len
  let hmm := mid4 h00 h01 h10 h11 + scale * samples s.k
  let h0m :=
    if mid_len < x0 then
      let hMm := m.get (x0 - mid_len) ym
      mid4 h00 h01 hmm hMm + scale2 * samples (s.k + 1)
    else
      mid3 h00 h01 hmm + scale2 * samples (s.k + 1)
  let hm0 :=
    if mid_len < y0 then
      let hmM := m.get xm (y0 - mid_len)
      mid4 h00 h10 hmm hmM + scale2 * samples (s.k + 2)
    else
      mid3 h00 h10 hmm + scale2 * samples (s.k + 2)
  let m := ((m.set x0 ym h0m).set xm y0 hm0).set xm ym hmm
  ⟨m, s.k + 3⟩

/-- End-of-column step of `diamond_square`
(src/heightmap/displacement.rs:181-187): displace the square point at the
top of the column, `(x0 + mid_len, size_1)`, from a 3-way average. -/
def ds_colEnd (samples : ℕ → ℚ) (quad_len x0 size_1 : ℕ) (s : GenState) : GenState :=
  let mid_len := quad_len / 2
  let scale2 : ℚ := (mid_len : ℚ) * SQRT_2
  let m := s.m
  let h00 := m.get x0 size_1
  let h10 := m.get (x0 + quad_len) size_1
  let xm := x0 + mid_len
  let hmM := m.get xm (size_1 - mid_len)
  let hm0 := mid3 h00 h10 hmM + scale2 * samples s.k
  ⟨m.set xm size_1 hm0, s.k + 1⟩

/-- One column of `diamond_square`: all quads with lower `x` corner `x0`
(`y` inner loop), followed by the end-of-column square point. -/
def ds_col (samples : ℕ → ℚ) (size_1 quad_len x0 : ℕ) (s : GenState) : GenState :=
  ds_colEnd samples quad_len x0 size_1
    (((List.range (size_1 / quad_len)).map (· * quad_len)).foldl
      (fun s y0 => ds_quad samples quad_len x0 y0 s) s)

/-- One step of the end-of-rows sweep of `diamond_square`
(src/heightmap/displacement.rs:192-205), which displaces
`(size_1, y0 + mid_len)`; the accumulator carries the `h01` value the
Rust code chains between iterations. -/
def ds_rowEndStep (samples : ℕ → ℚ) (quad_len size_1 : ℕ)
    (acc : GenState × ℚ) (y0 : ℕ) : GenState × ℚ :=
  let mid_len := quad_len / 2
  let scale2 : ℚ := (mid_len : ℚ) * SQRT_2
  let s := acc.1
  let h00 := acc.2
  let h01 := s.m.get size_1 (y0 + quad_len)
  let ym := y0 + mid_len
  let hMm := s.m.get (size_1 - mid_len) ym
  let h0m := mid3 h00 h01 hMm + scale2 * samples s.k
  (⟨s.m.set size_1 ym h0m, s.k + 1⟩, h01)

/-- The end-of-rows sweep of `diamond_square`, over all `y0` of the last
column position `x0 = size_1`. -/
def ds_rowEnd (samples : ℕ → ℚ) (size_1 quad_len : ℕ) (s : GenState) : GenState :=
  (((List.range (size_1 / quad_len)).map (· * quad_len)).foldl
    (ds_rowEndStep samples quad_len size_1) (s, s.m.get size_1 0)).1

/-- One subdivision level of `diamond_square`: the columns in `x` order,
then the end-of-rows sweep. -/
def ds_level (samples : ℕ → ℚ) (size_1 quad_len : ℕ) (s : GenState) : GenState :=
  ds_rowEnd samples size_1 quad_len
    (((List.range (size_1 / quad_len)).map (· * quad_len)).foldl
      (fun s x0 => ds_col samples size_1 quad_len x0 s) s)

/-- The level loop of `diamond_square`. -/
def ds_levels (samples : ℕ → ℚ) (size_1 n : ℕ) : ℕ → ℕ → GenState → GenState
  | 0, _, s => s
  | fuel + 1, i, s => ds_levels samples size_1 n fuel (i + 1)
      (ds_level samples size_1 (2 ^ (n - i)) s)

/-- `diamond_square` (src/heightmap/displacement.rs:118-213); same
precondition check and side-1 caveat as `midpoint_displacement`. -/
def diamond_square (m : Heightmap) (n0 : ℕ) (samples : ℕ → ℚ) :
    Except DispError Heightmap :=
  match disp_check m.len0 m.len1 with
  | some e => .error e
  | none =>
    let size_1 := m.len0 - 1
    let n := trailing_zeros64 size_1
    .ok (ds_levels samples size_1 n (n - n0) n0 ⟨m, 0⟩).m

/-! ## Fault displacement (src/heightmap/fault.rs) -/

/-- Loop body of `fault_displacement` (src/heightmap/fault.rs:84-96) for
one vertex `(x, y)`: the signed distance `d` is the dot product of `v`
with the offset from the line point `p` to the scaled vertex position
`(x*xf, y*yf)`, and the height is bumped by `displacement d` when that is
nonzero. -/
def fault_step (v p : ℚ × ℚ) (xf yf : ℚ) (displacement : ℚ → ℚ)
    (g : Heightmap) (x y : ℕ) : Heightmap :=
  let dx := (x : ℚ) * xf - p.1
  let dy := (y : ℚ) * yf - p.2
  let d := dx * v.1 + dy * v.2
  let h := displacement d
  if h ≠ 0 then g.set x y (g.get x y + h) else g

/-- `fault_displacement` (src/heightmap/fault.rs:61-97).  The externally
sampled values — the `UnitCircle` direction `v` and the
`gen_range(width.0 - √2/2, width.1 + √2/2)` offset — are parameters; the
line point is `p = (1/2 + offset*v.0, 1/2 + offset*v.1)` and the
per-axis scales are `xf = 1/len0`, `yf = 1/len1`; the loop visits `x`
outer, `y` inner. -/
def fault_displacement (m : Heightmap) (v : ℚ × ℚ) (offset : ℚ)
    (displacement : ℚ → ℚ) : Heightmap :=
  let xn := m.len0
  let yn := m.len1
  let xf : ℚ := 1 / (xn : ℚ)
  let yf : ℚ := 1 / (yn : ℚ)
  let p : ℚ × ℚ := (1 / 2 + offset * v.1, 1 / 2 + offset * v.2)
  (vertListX xn yn).foldl
    (fun g c => fault_step v p xf yf displacement g c.1 c.2) m

/-! ## Voronoi (src/heightmap/voronoi.rs) -/

/-- Model of `Vec::sort_by` with `partial_cmp`: a stable ascending sort
(on `ℚ` the order is total, and all stable ascending sorts agree). -/
def sortAsc (l : List ℚ) : List ℚ := l.insertionSort (· ≤ ·)

/-- The distances from the vertex `(ix, iy)` to every seed point, in seed
order (the `d` vector of `Voronoi::apply_to` before sorting). -/
def voronoi_dists (points : List (ℚ × ℚ)) (m : Heightmap)
    (dist : ℚ → ℚ → ℚ) (ix iy : ℕ) : List ℚ :=
  points.map (fun p =>
    let c := m.coord_of ix iy
    dist (p.1 - c.1) (p.2 - c.2))

/-- The per-vertex height written by `Voronoi::apply_to`
(src/heightmap/voronoi.rs:58-67): the old height plus
`w[i] * d_sorted[i]` accumulated for `i < min (len w) (len points)`. -/
def voronoi_vertex (points : List (ℚ × ℚ)) (w : List ℚ)
    (dist : ℚ → ℚ → ℚ) (m : Heightmap) (ix iy : ℕ) : ℚ :=
  let nw := min w.length points.length
  let d := sortAsc (voronoi_dists points m dist ix iy)
  (List.range nw).foldl (fun h i => h + w.getD i 0 * d.getD i 0) (m.get ix iy)

/-- `Voronoi::apply_to` (src/heightmap/voronoi.rs:50-71): visit the
vertices (`iy` outer, `ix` inner per the Rust loops, with the bounds
given by `cells()`), writing each vertex's weighted-distance sum. -/
def voronoi_apply_to (points : List (ℚ × ℚ)) (m : Heightmap) (w : List ℚ)
    (dist : ℚ → ℚ → ℚ) : Heightmap :=
  (vertList m.cells.1 m.cells.2).foldl
    (fun g c => g.set c.1 c.2 (voronoi_vertex points w dist g c.1 c.2)) m

/-! ## Perlin noise (src/unbounded/perlin.rs)

The gradient table lookup `self.gradient[hash(index)]` combines a float
to-integer cast (`try_convert::<_, f64>(x).unwrap() as u64`), an integer
mixing hash and a masked table index; the composite is modelled as an
abstract function `grad : ℚ × ℚ → ℚ × ℚ` from the integral lattice corner
to its unit gradient vector, which is all `Perlin::get`'s interpolation
reads from it. -/

/-- The smootherstep easing `s(x) = x²(3 - 2x)`
(src/unbounded/perlin.rs:85). -/
def smootherstep (x : ℚ) : ℚ := x * x * (3 - 2 * x)

/-- `lerp` (src/unbounded/perlin.rs:89). -/
def lerp (t a b : ℚ) : ℚ := a + t * (b - a)

/-- Dot product of an offset with a gradient
(src/unbounded/perlin.rs:90). -/
def dp (u v : ℚ × ℚ) : ℚ := u.1 * v.1 + u.2 * v.2

/-- `Perlin::get` (src/unbounded/perlin.rs:57-101): scale the coordinate,
split off the containing lattice cell, and bilinearly interpolate the
four corner-gradient dot products with smootherstep weights. -/
def perlin_get (scale : ℚ) (grad : ℚ × ℚ → ℚ × ℚ) (x y : ℚ) : ℚ :=
  let p : ℚ × ℚ := (x * scale, y * scale)
  let p0 : ℚ × ℚ := ((⌊p.1⌋ : ℚ), (⌊p.2⌋ : ℚ))
  let p1 : ℚ × ℚ := (p0.1 + 1, p0.2 + 1)
  let r0 : ℚ × ℚ := (p.1 - p0.1, p.2 - p0.2)
  let r1 : ℚ × ℚ := (p.1 - p1.1, p.2 - p1.2)
  let s0 := smootherstep r0.1
  let s1 := smootherstep r0.2
  let u := dp r0 (grad (p0.1, p0.2))
  let v := dp (r1.1, r0.2) (grad (p1.1, p0.2))
  let a := lerp s0 u v
  let u' := dp (r0.1, r1.2) (grad (p0.1, p1.2))
  let v' := dp r1 (grad (p1.1, p1.2))
  let b := lerp s0 u' v'
  lerp s1 a b

/-! ## Ray casting (src/heightmap/ncollide_impls.rs)

The ncollide primitives used by `toi_and_normal_with_ray` — the AABB ray
clip and `Triangle::toi_and_normal_with_ray` — are external crate code,
passed in as parameters (`clip`, and `triInt` returning the two per-cell
triangle hits).  Only the `toi` field of an intersection is inspected by
the traversal, so a hit is modelled by its `toi : ℚ`. -/

/-- A 3-vector of rationals (local-frame ray origin/direction). -/
structure V3 where
  x : ℚ
  y : ℚ
  z : ℚ
deriving DecidableEq

/-- The x-axis cell-boundary crossing parameter
(src/heightmap/ncollide_impls.rs:132-140): next boundary `cell.0 + 1`
when `dir.x > 0`, boundary `cell.0` when `dir.x < 0`, `F::max_value()`
otherwise, scaled by `len_frac.0`. -/
def toi_x_code (len_frac : ℚ × ℚ) (origin dir : V3) (cell0 : ℕ) : ℚ :=
  if 0 < dir.x then (((cell0 + 1 : ℕ) : ℚ) * len_frac.1 - origin.x) / dir.x
  else if dir.x < 0 then ((cell0 : ℚ) * len_frac.1 - origin.x) / dir.x
  else Fmax

/-- The y-axis cell-boundary crossing parameter exactly as written
(src/heightmap/ncollide_impls.rs:142-150): note that both branches scale
by `len_frac.0` and that the second branch tests `dir.z < 0`. -/
def toi_y_code (len_frac : ℚ × ℚ) (origin dir : V3) (cell1 : ℕ) : ℚ :=
  if 0 < dir.y then (((cell1 + 1 : ℕ) : ℚ) * len_frac.1 - origin.y) / dir.y
  else if dir.z < 0 then ((cell1 : ℚ) * len_frac.1 - origin.y) / dir.y
  else Fmax

/-- The y-axis crossing computation as the specification describes it:
the boundary (`cell.1` or `cell.1 + 1` by the sign of `dir.y`) scaled by
the y spacing `len_frac.1`, with no finite crossing when `dir.y = 0`. -/
def toi_y_spec (len_frac : ℚ × ℚ) (origin dir : V3) (cell1 : ℕ) : ℚ :=
  if 0 < dir.y then (((cell1 + 1 : ℕ) : ℚ) * len_frac.2 - origin.y) / dir.y
  else if dir.y < 0 then ((cell1 : ℚ) * len_frac.2 - origin.y) / dir.y
  else Fmax

/-- Result of one pass through the traversal `loop`: return a value, or
go around again with a (possibly unchanged) cell. -/
inductive StepOut where
  | ret (r : Option ℚ)
  | step (c : ℕ × ℕ)
deriving DecidableEq

/-- One pass through the `loop` of `toi_and_normal_with_ray`
(src/heightmap/ncollide_impls.rs:107-175).  On an edge "cell" the Rust
code executes `continue` without changing `cell`, modelled by
`.step cell`. -/
def march_step (dim : ℕ × ℕ) (len_frac : ℚ × ℚ) (origin dir : V3) (max_t : ℚ)
    (triInt : ℕ × ℕ → Option ℚ × Option ℚ) (cell : ℕ × ℕ) : StepOut :=
  if cell.1 + 1 = dim.1 ∨ cell.2 + 1 = dim.2 then
    .step cell
  else
    match triInt cell with
    | (some t1, some t2) => .ret (some (if t1 < t2 then t1 else t2))
    | (some t, none) => .ret (some t)
    | (none, some t) => .ret (some t)
    | (none, none) =>
      -- `is_pos.0` and `is_pos.1` of the Rust code are inlined as
      -- `0 < dir.x` and `0 < dir.y` below.
      let toi_x := toi_x_code len_frac origin dir cell.1
      let toi_y := toi_y_code len_frac origin dir cell.2
      if max_t < toi_x ∧ max_t < toi_y then .ret none
      else if 0 ≤ toi_x ∧ toi_x < toi_y then
        if 0 < dir.x ∧ cell.1 + 2 < dim.1 then .step (cell.1 + 1, cell.2)
        else if ¬0 < dir.x ∧ 0 < cell.1 then .step (cell.1 - 1, cell.2)
        else .ret none
      else if 0 ≤ toi_y then
        if 0 < dir.y ∧ cell.2 + 2 < dim.2 then .step (cell.1, cell.2 + 1)
        else if ¬0 < dir.y ∧ 0 < cell.2 then .step (cell.1, cell.2 - 1)
        else .ret none
      else .ret none

/-- Fuel-indexed run of the traversal loop: `some r` when the Rust loop
returns `r` within `fuel` passes, `none` when it is still running. -/
def march (dim : ℕ × ℕ) (len_frac : ℚ × ℚ) (origin dir : V3) (max_t : ℚ)
    (triInt : ℕ × ℕ → Option ℚ × Option ℚ) : ℕ → ℕ × ℕ → Option (Option ℚ)
  | 0, _ => none
  | fuel + 1, cell =>
    match march_step dim len_frac origin dir max_t triInt cell with
    | .ret r => some r
    | .step c => march dim len_frac origin dir max_t triInt fuel c

/-- `toi_and_normal_with_ray` (src/heightmap/ncollide_impls.rs:83-178)
in the grid's local frame: clip the ray (external, passed as `clip`),
locate the entry cell of the entry point, and march.  `some none` is
Rust's `None` (no intersection); `none` means the loop has not returned
after `fuel` passes. -/
def toi_and_normal (m : Heightmap) (origin dir : V3) (clip : Option (ℚ × ℚ))
    (triInt : ℕ × ℕ → Option ℚ × Option ℚ) (fuel : ℕ) : Option (Option ℚ) :=
  match clip with
  | none => some none
  | some (min_t, max_t) =>
    match m.cell_at_coord (origin.x + dir.x * min_t) (origin.y + dir.y * min_t) with
    | none => some none
    | some cell => march m.dim m.len_frac origin dir max_t triInt fuel cell

/-! ## Bilinear interpolation (the §8 oracle) and mutation sequences -/

/-- Bilinear interpolation over the square `[0, S]²` of the four corner
values `h00 = h(0,0)`, `h01 = h(0,S)`, `h10 = h(S,0)`, `h11 = h(S,S)`. -/
def bilinear (h00 h01 h10 h11 : ℚ) (S : ℚ) (x y : ℚ) : ℚ :=
  (h00 * (S - x) * (S - y) + h01 * (S - x) * y + h10 * x * (S - y) + h11 * x * y)
    / (S * S)

/-- A mutation call on a heightmap: `set`, the bulk `add_surface`, or one
of the displacement/blend passes (with their externally sampled inputs as
payload). -/
inductive HmOp where
  | setOp (cx cy : ℕ) (v : ℚ)
  | addSurfaceOp (f : ℚ → ℚ → ℚ) (mult : ℚ)
  | mdOp (n0 : ℕ) (samples : ℕ → ℚ)
  | dsOp (n0 : ℕ) (samples : ℕ → ℚ)
  | voronoiOp (points : List (ℚ × ℚ)) (w : List ℚ) (dist : ℚ → ℚ → ℚ)
  | faultOp (v : ℚ × ℚ) (offset : ℚ) (displacement : ℚ → ℚ)

/-- Apply one mutation call; a displacement call that fails its
precondition leaves the grid unchanged. -/
def applyOp (m : Heightmap) : HmOp → Heightmap
  | .setOp cx cy v => m.set cx cy v
  | .addSurfaceOp f mult => m.add_surface f mult
  | .mdOp n0 samples =>
    match midpoint_displacement m n0 samples with
    | .ok m' => m'
    | .error _ => m
  | .dsOp n0 samples =>
    match diamond_square m n0 samples with
    | .ok m' => m'
    | .error _ => m
  | .voronoiOp points w dist => voronoi_apply_to points m w dist
  | .faultOp v offset displacement => fault_displacement m v offset displacement

/-- Apply a sequence of mutation calls in order. -/
def applyOps (m : Heightmap) (l : List HmOp) : Heightmap :=
  l.foldl applyOp m

/-- The cached range bounds every stored height value. -/
def rangeBounds (m : Heightmap) : Prop :=
  ∀ v ∈ m.data, m.range.1 ≤ v ∧ v ≤ m.range.2

/-- The four corner vertices of a square grid with far index `S`. -/
def IsCorner (S : ℕ) (c : ℕ × ℕ) : Prop :=
  (c.1 = 0 ∨ c.1 = S) ∧ (c.2 = 0 ∨ c.2 = S)

/-- `bilinear` evaluated at integer grid indices. -/
def bilinearN (h00 h01 h10 h11 : ℚ) (S x y : ℕ) : ℚ :=
  bilinear h00 h01 h10 h11 (S : ℚ) (x : ℚ) (y : ℚ)

/-- The five vertices written by `md_quad` for the quad at `p` with side
`q`, in write order. -/
def mdTargets (q : ℕ) (p : ℕ × ℕ) : List (ℕ × ℕ) :=
  [(p.1, p.2 + q / 2), (p.1 + q, p.2 + q / 2), (p.1 + q / 2, p.2),
   (p.1 + q / 2, p.2 + q), (p.1 + q / 2, p.2 + q / 2)]

/-! ## Concrete fixtures used by witnesses and counterexamples -/

/-- A flat 2×2-vertex grid of physical size `(2, 2)` (as built by
`new_flat ((2,2), (2,2))`, with its fields spelled out). -/
def gC6 : Heightmap :=
  { dim := (2, 2), len_frac := (2, 2), size := (2, 2), range := (0, 0),
    data := [0, 0, 0, 0] }

/-- A 3×3 grid (`side = 2^1 + 1`) of size `(2, 2)` whose corners are
`h(0,0) = 0`, `h(2,0) = 2`, `h(0,2) = 0`, `h(2,2) = 2` (the bilinear
interpolant of these corners is `B(x, y) = x`). -/
def g3 : Heightmap :=
  { dim := (3, 3), len_frac := (1, 1), size := (2, 2), range := (0, 2),
    data := [0, 0, 2, 0, 0, 0, 0, 0, 2] }

/-! ## Basic lemmas about the data model -/

theorem flat_idx_lt {nx ny a b : ℕ} (ha : a < nx) (hb : b < ny) :
    a + b * nx < nx * ny := by
  calc a + b * nx < nx + b * nx := by omega
    _ = (b + 1) * nx := by ring
    _ ≤ ny * nx := Nat.mul_le_mul_right nx hb
    _ = nx * ny := Nat.mul_comm ny nx

theorem flat_idx_inj {nx a b c d : ℕ} (ha : a < nx) (hc : c < nx)
    (h : a + b * nx = c + d * nx) : a = c ∧ b = d := by
  constructor
  · have h1 : (a + b * nx) % nx = a := by
      rw [Nat.add_mul_mod_self_right]; exact Nat.mod_eq_of_lt ha
    have h2 : (c + d * nx) % nx = c := by
      rw [Nat.add_mul_mod_self_right]; exact Nat.mod_eq_of_lt hc
    rw [← h1, ← h2, h]
  · have : a = c := by
      have h1 : (a + b * nx) % nx = a := by
        rw [Nat.add_mul_mod_self_right]; exact Nat.mod_eq_of_lt ha
      have h2 : (c + d * nx) % nx = c := by
        rw [Nat.add_mul_mod_self_right]; exact Nat.mod_eq_of_lt hc
      rw [← h1, ← h2, h]
    subst this
    have hx : 0 < nx := by omega
    exact Nat.eq_of_mul_eq_mul_right hx (by omega)

@[simp] theorem Heightmap.set_dim (m : Heightmap) (a b : ℕ) (v : ℚ) :
    (m.set a b v).dim = m.dim := rfl

@[simp] theorem Heightmap.set_size (m : Heightmap) (a b : ℕ) (v : ℚ) :
    (m.set a b v).size = m.size := rfl

@[simp] theorem Heightmap.set_len_frac (m : Heightmap) (a b : ℕ) (v : ℚ) :
    (m.set a b v).len_frac = m.len_frac := rfl

@[simp] theorem Heightmap.set_data_length (m : Heightmap) (a b : ℕ) (v : ℚ) :
    (m.set a b v).data.length = m.data.length := by
  simp [Heightmap.set]

theorem Heightmap.get_set_self (m : Heightmap) (a b : ℕ) (v : ℚ)
    (h : a + b * m.dim.1 < m.data.length) : (m.set a b v).get a b = v := by
  simp [Heightmap.get, Heightmap.set, List.getD, List.getElem?_set_self, h]

theorem Heightmap.get_set_ne (m : Heightmap) (a b c d : ℕ) (v : ℚ)
    (h : c + d * m.dim.1 ≠ a + b * m.dim.1) :
    (m.set a b v).get c d = m.get c d := by
  simp [Heightmap.get, Heightmap.set, List.getD, List.getElem?_set_ne h.symm]

/-- Distinct vertex indices below the row length give distinct flat
indices, so `set` at one leaves `get` at the other unchanged. -/
theorem Heightmap.get_set_ne' (m : Heightmap) (a b c d : ℕ) (v : ℚ)
    (ha : a < m.dim.1) (hc : c < m.dim.1) (hne : (c, d) ≠ (a, b)) :
    (m.set a b v).get c d = m.get c d := by
  refine m.get_set_ne a b c d v (fun h => hne ?_)
  obtain ⟨h1, h2⟩ := flat_idx_inj hc ha h
  simp [h1, h2]

theorem vertList_mem {nx ny : ℕ} {c : ℕ × ℕ} :
    c ∈ vertList nx ny ↔ c.1 < nx ∧ c.2 < ny := by
  cases c with
  | mk a b =>
    simp only [vertList, List.mem_flatMap, List.mem_map, List.mem_range]
    constructor
    · rintro ⟨iy, hiy, ix, hix, heq⟩
      cases heq; exact ⟨hix, hiy⟩
    · rintro ⟨h1, h2⟩; exact ⟨b, h2, a, h1, rfl⟩

theorem vertList_nodup (nx ny : ℕ) : (vertList nx ny).Nodup := by
  refine List.nodup_flatMap.2 ⟨fun iy _ => ?_, ?_⟩
  · exact (List.nodup_range nx).map (fun a b h => congrArg Prod.fst h)
  · refine (List.nodup_range ny).imp ?_
    intro a b hab
    simp only [Function.onFun, List.disjoint_left]
    rintro ⟨u, w⟩ hu hw
    simp only [List.mem_map, List.mem_range] at hu hw
    obtain ⟨_, _, h1⟩ := hu
    obtain ⟨_, _, h2⟩ := hw
    cases h1; cases h2; exact hab rfl

theorem vertListX_mem {nx ny : ℕ} {c : ℕ × ℕ} :
    c ∈ vertListX nx ny ↔ c.1 < nx ∧ c.2 < ny := by
  cases c with
  | mk a b =>
    simp only [vertListX, List.mem_flatMap, List.mem_map, List.mem_range]
    constructor
    · rintro ⟨x, hx, y, hy, heq⟩
      cases heq; exact ⟨hx, hy⟩
    · rintro ⟨h1, h2⟩; exact ⟨a, h1, b, h2, rfl⟩

theorem vertListX_nodup (nx ny : ℕ) : (vertListX nx ny).Nodup := by
  refine List.nodup_flatMap.2 ⟨fun x _ => ?_, ?_⟩
  · exact (List.nodup_range ny).map (fun a b h => congrArg Prod.snd h)
  · refine (List.nodup_range nx).imp ?_
    intro a b hab
    simp only [Function.onFun, List.disjoint_left]
    rintro ⟨u, w⟩ hu hw
    simp only [List.mem_map, List.mem_range] at hu hw
    obtain ⟨_, _, h1⟩ := hu
    obtain ⟨_, _, h2⟩ := hw
    cases h1; cases h2; exact hab rfl

/-- Preservation of a predicate along a left fold. -/
theorem foldl_preserve {α β : Type} (P : β → Prop) (f : β → α → β)
    (l : List α) (h : ∀ s a, a ∈ l → P s → P (f s a)) (init : β)
    (h0 : P init) : P (l.foldl f init) := by
  induction l generalizing init with
  | nil => exact h0
  | cons x xs ih =>
    exact ih (fun s a ha hs => h s a (List.mem_cons_of_mem x ha) hs)
      (f init x) (h init x (List.mem_cons_self x xs) h0)

theorem foldl_min_le_init (l : List ℚ) (init : ℚ) : l.foldl min init ≤ init := by
  induction l generalizing init with
  | nil => exact le_refl _
  | cons x xs ih => exact le_trans (ih (min init x)) (min_le_left _ _)

theorem init_le_foldl_max (l : List ℚ) (init : ℚ) : init ≤ l.foldl max init := by
  induction l generalizing init with
  | nil => exact le_refl _
  | cons x xs ih => exact le_trans (le_max_left _ _) (ih (max init x))

theorem foldl_min_le {l : List ℚ} {a : ℚ} (h : a ∈ l) (init : ℚ) :
    l.foldl min init ≤ a := by
  induction l generalizing init with
  | nil => cases h
  | cons x xs ih =>
    rw [List.foldl_cons]
    rcases List.mem_cons.1 h with rfl | h'
    · exact le_trans (foldl_min_le_init xs (min init a)) (min_le_right _ _)
    · exact ih h' _

theorem le_foldl_max {l : List ℚ} {a : ℚ} (h : a ∈ l) (init : ℚ) :
    a ≤ l.foldl max init := by
  induction l generalizing init with
  | nil => cases h
  | cons x xs ih =>
    rw [List.foldl_cons]
    rcases List.mem_cons.1 h with rfl | h'
    · exact le_trans (le_max_right _ _) (init_le_foldl_max xs (max init a))
    · exact ih h' _

/-- A fold over a duplicate-free list of in-bounds vertices whose step
touches exactly the visited vertex: afterwards a visited vertex holds the
step's value computed from the original grid, unvisited vertices are
unchanged, and the grid geometry is preserved. -/
theorem foldl_step_pointwise
    (step : Heightmap → ℕ → ℕ → Heightmap)
    (V : Heightmap → ℕ → ℕ → ℚ)
    (Hdim : ∀ g a b, (step g a b).dim = g.dim)
    (Hsize : ∀ g a b, (step g a b).size = g.size)
    (Hlf : ∀ g a b, (step g a b).len_frac = g.len_frac)
    (Hlen : ∀ g a b, (step g a b).data.length = g.data.length)
    (Hself : ∀ g a b, a < g.dim.1 → b < g.dim.2 →
      g.data.length = g.dim.1 * g.dim.2 → (step g a b).get a b = V g a b)
    (Hother : ∀ g a b c d, a < g.dim.1 → c < g.dim.1 → (c, d) ≠ (a, b) →
      (step g a b).get c d = g.get c d)
    (HV : ∀ g g' a b, g.dim = g'.dim → g.len_frac = g'.len_frac →
      g.get a b = g'.get a b → V g a b = V g' a b)
    (l : List (ℕ × ℕ)) (hnd : l.Nodup)
    (m : Heightmap) (hb : ∀ c ∈ l, c.1 < m.dim.1 ∧ c.2 < m.dim.2)
    (hlen : m.data.length = m.dim.1 * m.dim.2) :
    (l.foldl (fun g c => step g c.1 c.2) m).dim = m.dim ∧
    (l.foldl (fun g c => step g c.1 c.2) m).size = m.size ∧
    (l.foldl (fun g c => step g c.1 c.2) m).len_frac = m.len_frac ∧
    (l.foldl (fun g c => step g c.1 c.2) m).data.length = m.data.length ∧
    ∀ a b, a < m.dim.1 →
      ((a, b) ∈ l → (l.foldl (fun g c => step g c.1 c.2) m).get a b = V m a b) ∧
      ((a, b) ∉ l → (l.foldl (fun g c => step g c.1 c.2) m).get a b = m.get a b) := by
  induction l generalizing m with
  | nil =>
    refine ⟨rfl, rfl, rfl, rfl, fun a b _ => ⟨fun h => absurd h (List.not_mem_nil _), fun _ => rfl⟩⟩
  | cons x xs ih =>
    obtain ⟨hx_notmem, hnd'⟩ := List.nodup_cons.1 hnd
    have hbx := hb x (List.mem_cons_self x xs)
    have hdim1 : (step m x.1 x.2).dim = m.dim := Hdim m x.1 x.2
    have hlf1 : (step m x.1 x.2).len_frac = m.len_frac := Hlf m x.1 x.2
    have hlen1 : (step m x.1 x.2).data.length =
        (step m x.1 x.2).dim.1 * (step m x.1 x.2).dim.2 := by
      rw [Hlen m x.1 x.2, hdim1, hlen]
    have hb1 : ∀ c ∈ xs, c.1 < (step m x.1 x.2).dim.1 ∧ c.2 < (step m x.1 x.2).dim.2 := by
      intro c hc
      rw [hdim1]
      exact hb c (List.mem_cons_of_mem x hc)
    obtain ⟨rdim, rsize, rlf, rlen, rget⟩ := ih hnd' (step m x.1 x.2) hb1 hlen1
    rw [List.foldl_cons]
    refine ⟨by rw [rdim, hdim1], by rw [rsize, Hsize m x.1 x.2],
      by rw [rlf, hlf1], by rw [rlen, Hlen m x.1 x.2], ?_⟩
    intro a b hadim
    have hadim1 : a < (step m x.1 x.2).dim.1 := by rw [hdim1]; exact hadim
    constructor
    · intro hmem
      rcases List.mem_cons.1 hmem with heq | hmem'
      · -- the head vertex: untouched by the tail fold, set by the head step
        have hnot : (a, b) ∉ xs := by rw [heq]; exact hx_notmem
        rw [((rget a b hadim1).2 hnot)]
        have : x = (a, b) := heq.symm
        subst this
        exact Hself m a b hbx.1 hbx.2 hlen
      · -- a tail vertex: its step value only reads untouched state
        rw [(rget a b hadim1).1 hmem']
        refine HV _ _ a b hdim1 hlf1 ?_
        have hne : (a, b) ≠ x := fun h => hx_notmem (h ▸ hmem')
        exact Hother m x.1 x.2 a b hbx.1 (hb _ (List.mem_cons_of_mem x hmem')).1 hne
    · intro hnot
      have hnot' : (a, b) ∉ xs := fun h => hnot (List.mem_cons_of_mem x h)
      have hne : (a, b) ≠ x := fun h => hnot (h ▸ List.mem_cons_self x xs)
      rw [(rget a b hadim1).2 hnot']
      by_cases hax : a < m.dim.1
      · exact Hother m x.1 x.2 a b hbx.1 hax hne
      · exact absurd hadim hax

/-! ## Claim C10: `cell_at_coord` on the far boundary -/

/-- C10: on a grid with at least two vertices per axis, a coordinate
exactly on the far boundary (`x = size.0` with `0 ≤ y ≤ size.1`, or
symmetrically `y = size.1`) yields `some` with that axis's component
equal to `dim - 1` — an index for which no cell exists, since a cell
needs `index + 1 < dim` — and only coordinates with a component outside
`[0, size]` yield `none`. -/
theorem cell_at_coord_far_boundary (m : Heightmap)
    (h2x : 2 ≤ m.dim.1) (h2y : 2 ≤ m.dim.2)
    (hsx : 0 < m.size.1) (hsy : 0 < m.size.2)
    (hlfx : m.len_frac.1 = m.size.1 / ((m.dim.1 - 1 : ℕ) : ℚ))
    (hlfy : m.len_frac.2 = m.size.2 / ((m.dim.2 - 1 : ℕ) : ℚ)) :
    (∀ y, 0 ≤ y → y ≤ m.size.2 →
      ∃ cy, m.cell_at_coord m.size.1 y = some (m.dim.1 - 1, cy)) ∧
    (∀ x, 0 ≤ x → x ≤ m.size.1 →
      ∃ cx, m.cell_at_coord x m.size.2 = some (cx, m.dim.2 - 1)) ∧
    ¬(m.dim.1 - 1 + 1 < m.dim.1) ∧
    (∀ x y, m.cell_at_coord x y = none ↔
      ¬(0 ≤ x ∧ x ≤ m.size.1) ∨ ¬(0 ≤ y ∧ y ≤ m.size.2)) := by
  have hdx : ((m.dim.1 - 1 : ℕ) : ℚ) ≠ 0 := Nat.cast_ne_zero.2 (by omega)
  have hdy : ((m.dim.2 - 1 : ℕ) : ℚ) ≠ 0 := Nat.cast_ne_zero.2 (by omega)
  have keyx : m.size.1 / m.len_frac.1 = ((m.dim.1 - 1 : ℕ) : ℚ) := by
    rw [hlfx]
    field_simp
  have keyy : m.size.2 / m.len_frac.2 = ((m.dim.2 - 1 : ℕ) : ℚ) := by
    rw [hlfy]
    field_simp
  refine ⟨?_, ?_, by omega, ?_⟩
  · intro y h0 h1
    refine ⟨(⌊y / m.len_frac.2⌋).toNat, ?_⟩
    rw [Heightmap.cell_at_coord, if_pos ⟨le_of_lt hsx, le_refl _⟩, if_pos ⟨h0, h1⟩,
      keyx, Int.floor_natCast, Int.toNat_natCast]
  · intro x h0 h1
    refine ⟨(⌊x / m.len_frac.1⌋).toNat, ?_⟩
    rw [Heightmap.cell_at_coord, if_pos ⟨h0, h1⟩, if_pos ⟨le_of_lt hsy, le_refl _⟩,
      keyy, Int.floor_natCast, Int.toNat_natCast]
  · intro x y
    rw [Heightmap.cell_at_coord]
    split_ifs with hx hy
    · simp [hx, hy]
    · simp [hx, hy]
    · simp [hx]

/-- Witness for C10 on a concrete grid and boundary coordinate. -/
theorem cell_at_coord_far_boundary_witness :
    ∃ cy, (new_flat (3, 3) (1, 1)).cell_at_coord 1 (1 / 2) = some (2, cy) := by
  have h := cell_at_coord_far_boundary (new_flat (3, 3) (1, 1))
    (by norm_num [new_flat]) (by norm_num [new_flat])
    (by norm_num [new_flat]) (by norm_num [new_flat])
    (by norm_num [new_flat]) (by norm_num [new_flat])
  simpa [new_flat] using h.1 (1 / 2) (by norm_num) (by norm_num [new_flat])

/-! ## Claim C2: the y-axis cell-boundary crossing -/

/-- C2: the code's y-axis crossing computation diverges from the
specified one: with `dir.y < 0` and `dir.z = 0` the code yields
`F::max_value()` (no finite crossing) where the specification demands the
finite crossing at boundary `cell.1`, because the second branch tests
`dir.z`; and with `dir.y > 0` the code scales the boundary by the x
spacing `len_frac.0` instead of the y spacing. -/
theorem toi_y_code_diverges :
    toi_y_code (1, 1) ⟨0, 1 / 2, 0⟩ ⟨1, -1, 0⟩ 3 = Fmax ∧
    toi_y_spec (1, 1) ⟨0, 1 / 2, 0⟩ ⟨1, -1, 0⟩ 3 = -(5 / 2) ∧
    Fmax ≠ -(5 / 2) ∧
    toi_y_code (1, 2) ⟨0, 0, 0⟩ ⟨0, 1, 0⟩ 0 = 1 ∧
    toi_y_spec (1, 2) ⟨0, 0, 0⟩ ⟨0, 1, 0⟩ 0 = 2 := by
  refine ⟨?_, ?_, ?_, ?_, ?_⟩ <;> norm_num [toi_y_code, toi_y_spec, Fmax]

/-! ## Claim C5: the displacement precondition check -/

/-- C5: the precondition check of `midpoint_displacement` and
`diamond_square` classifies side lengths 2, 3 and non-square/non-`2^n+1`
grids as claimed, but a 1×1 grid slips through: `trailing_zeros(0) = 64`
makes the comparison read `1 ≠ 2^64 + 1`, and `2usize.pow(64)` overflows
— wrapping to `0` in release mode so that the check passes (after which
the level loop never terminates), and panicking in debug mode — instead
of returning `NotPowerOf2Plus1`. -/
theorem disp_check_side1_passes :
    disp_check 1 1 = none ∧
    disp_check 2 2 = none ∧
    disp_check 3 3 = none ∧
    disp_check 5 5 = none ∧
    disp_check 4 4 = some .NotPowerOf2Plus1 ∧
    disp_check 3 4 = some .NotSquare := by
  decide

/-! ## Claim C9: Perlin noise vanishes at lattice points -/

/-- C9: whenever the scaled coordinate lies exactly on the integer
lattice, `Perlin::get` returns `0` for any choice of gradient vectors:
the offset `r0` is zero, so both easing weights and the low-corner dot
products vanish. -/
theorem perlin_get_lattice_zero (scale x y : ℚ) (grad : ℚ × ℚ → ℚ × ℚ)
    (hx : ∃ i : ℤ, x * scale = (i : ℚ)) (hy : ∃ j : ℤ, y * scale = (j : ℚ)) :
    perlin_get scale grad x y = 0 := by
  obtain ⟨i, hi⟩ := hx
  obtain ⟨j, hj⟩ := hy
  simp only [perlin_get, hi, hj, Int.floor_intCast]
  simp [smootherstep, lerp, dp]

/-- Witness for C9 at a concrete lattice point and gradient table. -/
theorem perlin_get_lattice_zero_witness :
    perlin_get 1 (fun c => (c.1 + c.2, c.1 * c.2)) 3 5 = 0 :=
  perlin_get_lattice_zero 1 3 5 _ ⟨3, by norm_num⟩ ⟨5, by norm_num⟩

theorem foldl_add_shift (f : ℕ → ℚ) (l : List ℕ) (c : ℚ) :
    l.foldl (fun h i => h + f i) c = c + l.foldl (fun h i => h + f i) 0 := by
  induction l generalizing c with
  | nil => simp
  | cons x xs ih =>
    rw [List.foldl_cons, List.foldl_cons, ih (c + f x), ih (0 + f x)]
    ring

theorem foldl_add_range_eq_sum (f : ℕ → ℚ) (n : ℕ) :
    (List.range n).foldl (fun h i => h + f i) 0 = ∑ i ∈ Finset.range n, f i := by
  induction n with
  | zero => simp
  | succ k ih =>
    rw [List.range_succ, List.foldl_append, List.foldl_cons, List.foldl_nil,
      Finset.sum_range_succ, ih]

/-! ## Claim C7: `Voronoi::apply_to` adds the weighted sorted distances -/

/-- C7: `apply_to` visits every vertex of the grid (including the last
row and column, since `cells()` spans the vertex counts), adds to its
height exactly `Σ_{i < min(len w, len points)} w[i] * d_sorted[i]` where
`d_sorted` ascendingly sorts the `dist`-distances from the vertex to the
seeds, and changes nothing else of the grid's geometry. -/
theorem voronoi_apply_to_pointwise (points : List (ℚ × ℚ)) (w : List ℚ)
    (dist : ℚ → ℚ → ℚ) (m : Heightmap)
    (hlen : m.data.length = m.dim.1 * m.dim.2)
    (a b : ℕ) (ha : a < m.dim.1) (hb : b < m.dim.2) :
    (voronoi_apply_to points m w dist).get a b =
      m.get a b + ∑ i ∈ Finset.range (min w.length points.length),
        w.getD i 0 * (sortAsc (voronoi_dists points m dist a b)).getD i 0 ∧
    (sortAsc (voronoi_dists points m dist a b)).Sorted (· ≤ ·) ∧
    (sortAsc (voronoi_dists points m dist a b)).Perm
      (voronoi_dists points m dist a b) ∧
    (voronoi_apply_to points m w dist).dim = m.dim ∧
    (voronoi_apply_to points m w dist).size = m.size ∧
    (voronoi_apply_to points m w dist).len_frac = m.len_frac ∧
    (voronoi_apply_to points m w dist).data.length = m.data.length := by
  have H := foldl_step_pointwise
    (fun g x y => g.set x y (voronoi_vertex points w dist g x y))
    (fun g x y => voronoi_vertex points w dist g x y)
    (fun g x y => rfl) (fun g x y => rfl) (fun g x y => rfl)
    (fun g x y => Heightmap.set_data_length g x y _)
    (fun g x y hx hy hl =>
      Heightmap.get_set_self g x y _ (hl ▸ flat_idx_lt hx hy))
    (fun g x y c d hx hc hne => Heightmap.get_set_ne' g x y c d _ hx hc hne)
    (fun g g' x y hdim hlf hget => by
      simp only [voronoi_vertex, voronoi_dists, Heightmap.coord_of, hlf, hget])
    (vertList m.dim.1 m.dim.2) (vertList_nodup _ _) m
    (fun c hc => vertList_mem.1 hc) hlen
  have e : voronoi_apply_to points m w dist =
      (vertList m.dim.1 m.dim.2).foldl
        (fun g c => (fun g x y => g.set x y (voronoi_vertex points w dist g x y))
          g c.1 c.2) m := rfl
  obtain ⟨hdim, hsize, hlf, hlength, hget⟩ := H
  have hmem : (a, b) ∈ vertList m.dim.1 m.dim.2 := vertList_mem.2 ⟨ha, hb⟩
  have hval := (hget a b ha).1 hmem
  refine ⟨?_, ?_, ?_, by rw [e]; exact hdim, by rw [e]; exact hsize,
    by rw [e]; exact hlf, by rw [e]; exact hlength⟩
  · rw [e, hval]
    show (List.range (min w.length points.length)).foldl
        (fun h i => h + w.getD i 0 * (sortAsc (voronoi_dists points m dist a b)).getD i 0)
        (m.get a b) = _
    rw [foldl_add_shift, foldl_add_range_eq_sum]
  · exact List.sorted_insertionSort (· ≤ ·) _
  · exact List.perm_insertionSort (· ≤ ·) _

/-- Witness for C7 on a concrete grid, seeds and weights: the vertex
`(1, 0)` is at distance 1 (squared-Euclidean metric) from both seeds, so
with weights `[1]` its height `0` gains exactly `1`. -/
theorem voronoi_apply_to_pointwise_witness :
    (voronoi_apply_to [(0, 0), (2, 0)] g3 [1] (fun a b => a * a + b * b)).get 1 0
      = 1 := by
  have h := voronoi_apply_to_pointwise [(0, 0), (2, 0)] [1]
    (fun a b => a * a + b * b) g3 (by decide) 1 0 (by decide) (by decide)
  rw [h.1]
  norm_num [g3, Heightmap.get, List.getD, sortAsc, voronoi_dists,
    Heightmap.coord_of, List.insertionSort, List.orderedInsert,
    Finset.sum_range_succ]

/-! ## Claim C6: `fault_displacement`'s per-vertex update -/

/-- Counterexample to C6 as stated: on the flat 2×2-vertex grid of size
`(2, 2)` with direction `v = (1, 0)`, offset `-1/2` (so the line point is
`p = (0, 1/2)`) and the identity displacement profile, the vertex
`(1, 0)` ends at height `1/2`, not at the claimed
`old + displacement(v ⬝ (coord_of(1,0) - p)) = 0 + 2`: the code measures
the distance from the scaled position `(x/len0, y/len1)`, not from the
physical coordinate `coord_of`. -/
theorem fault_displacement_coord_cex :
    (fault_displacement gC6 (1, 0) (-(1 / 2)) (fun d => d)).get 1 0 = 1 / 2 ∧
    (gC6.coord_of 1 0).1 = 2 ∧
    gC6.get 1 0 + (((gC6.coord_of 1 0).1 - 0) * 1 +
      ((gC6.coord_of 1 0).2 - 1 / 2) * 0) = 2 ∧
    (1 / 2 : ℚ) ≠ 2 := by
  refine ⟨?_, ?_, ?_, by norm_num⟩
  · norm_num [fault_displacement, fault_step, vertListX, List.range_succ, gC6,
      Heightmap.get, Heightmap.set, Heightmap.len0, Heightmap.len1, List.getD]
  · norm_num [gC6, Heightmap.coord_of]
  · norm_num [gC6, Heightmap.coord_of, Heightmap.get, List.getD]

/-- C6 (amended): in `fault_displacement` the signed distance `d` at
vertex `(x, y)` is the dot product of `v` with the offset from the line
point `p = (1/2 + offset*v.0, 1/2 + offset*v.1)` to the **scaled** vertex
position `(x/len0, y/len1)` (not the physical coordinate `coord_of`);
the height is incremented by exactly `displacement d` when that is
nonzero and is unchanged when it is zero. -/
theorem fault_displacement_pointwise (m : Heightmap) (v : ℚ × ℚ) (offset : ℚ)
    (displacement : ℚ → ℚ) (hlen : m.data.length = m.dim.1 * m.dim.2)
    (a b : ℕ) (ha : a < m.dim.1) (hb : b < m.dim.2) :
    (fault_displacement m v offset displacement).get a b =
      (let p : ℚ × ℚ := (1 / 2 + offset * v.1, 1 / 2 + offset * v.2)
       let d := ((a : ℚ) * (1 / (m.len0 : ℚ)) - p.1) * v.1 +
                ((b : ℚ) * (1 / (m.len1 : ℚ)) - p.2) * v.2
       if displacement d ≠ 0 then m.get a b + displacement d else m.get a b) := by
  have H := foldl_step_pointwise
    (fault_step v (1 / 2 + offset * v.1, 1 / 2 + offset * v.2)
      (1 / (m.len0 : ℚ)) (1 / (m.len1 : ℚ)) displacement)
    (fun g x y =>
      let d := ((x : ℚ) * (1 / (m.len0 : ℚ)) - (1 / 2 + offset * v.1)) * v.1 +
               ((y : ℚ) * (1 / (m.len1 : ℚ)) - (1 / 2 + offset * v.2)) * v.2
      if displacement d ≠ 0 then g.get x y + displacement d else g.get x y)
    (fun g x y => by
      simp only [fault_step]
      split
      · rfl
      · rfl)
    (fun g x y => by
      simp only [fault_step]
      split
      · rfl
      · rfl)
    (fun g x y => by
      simp only [fault_step]
      split
      · rfl
      · rfl)
    (fun g x y => by
      simp only [fault_step]
      split
      · exact Heightmap.set_data_length g x y _
      · rfl)
    (fun g x y hx hy hl => by
      simp only [fault_step]
      split_ifs with hcond
      · exact Heightmap.get_set_self g x y _ (hl ▸ flat_idx_lt hx hy)
      · simp only [ne_eq, not_not] at hcond
        simp [hcond])
    (fun g x y c d hx hc hne => by
      simp only [fault_step]
      split
      · exact Heightmap.get_set_ne' g x y c d _ hx hc hne
      · rfl)
    (fun g g' x y hdim hlf hget => by simp only [hget])
    (vertListX m.len0 m.len1) (vertListX_nodup _ _) m
    (fun c hc => vertListX_mem.1 hc) hlen
  obtain ⟨_, _, _, _, hget⟩ := H
  have hmem : (a, b) ∈ vertListX m.len0 m.len1 := by
    refine vertListX_mem.2 ⟨ha, hb⟩
  exact (hget a b ha).1 hmem

/-- Witness for the amended C6 on the counterexample's concrete grid:
the vertex `(0, 1)` has scaled position `(0, 1/2)`, signed distance
`0 - 0 = 0` to the line through `p = (0, 1/2)` with `v = (1, 0)`, so it
is left unchanged, while `(1, 0)` gains `1/2`. -/
theorem fault_displacement_pointwise_witness :
    (fault_displacement gC6 (1, 0) (-(1 / 2)) (fun d => d)).get 0 1 = 0 := by
  have h := fault_displacement_pointwise gC6 (1, 0)
    (-(1 / 2)) (fun d => d) (by decide) 0 1 (by decide) (by decide)
  rw [h]
  norm_num [gC6, Heightmap.get, Heightmap.len0, Heightmap.len1, List.getD]

/-! ## Claim C1: the cached range versus the stored heights -/

theorem rangeBounds_set {m : Heightmap} (h : rangeBounds m) (a b : ℕ) (v : ℚ) :
    rangeBounds (m.set a b v) := by
  intro u hu
  rcases List.mem_or_eq_of_mem_set hu with hmem | rfl
  · obtain ⟨h1, h2⟩ := h u hmem
    exact ⟨le_trans (min_le_left _ _) h1, le_trans h2 (le_max_left _ _)⟩
  · exact ⟨min_le_right _ _, le_max_right _ _⟩

/-- Any grid whose range was just recomputed by the full scan bounds its
data, whatever the data is. -/
theorem rangeBounds_of_scan (m : Heightmap) (h : m.range = range_scan m.data) :
    rangeBounds m := by
  intro u hu
  rw [h]
  exact ⟨foldl_min_le hu Fmax, le_foldl_max hu Fmin⟩

theorem rangeBounds_add_surface (m : Heightmap) (f : ℚ → ℚ → ℚ) (mult : ℚ) :
    rangeBounds (m.add_surface f mult) :=
  rangeBounds_of_scan _ rfl

theorem rangeBounds_md_quad {s : GenState} (h : rangeBounds s.m)
    (samples : ℕ → ℚ) (quad_len x0 y0 : ℕ) :
    rangeBounds (md_quad samples quad_len x0 y0 s).m := by
  simp only [md_quad]
  exact rangeBounds_set (rangeBounds_set (rangeBounds_set (rangeBounds_set
    (rangeBounds_set h _ _ _) _ _ _) _ _ _) _ _ _) _ _ _

theorem rangeBounds_md_level {s : GenState} (h : rangeBounds s.m)
    (samples : ℕ → ℚ) (size_1 quad_len : ℕ) :
    rangeBounds (md_level samples size_1 quad_len s).m :=
  foldl_preserve (fun t => rangeBounds t.m) _ _
    (fun _ q _ hs => rangeBounds_md_quad hs samples quad_len q.1 q.2) s h

theorem rangeBounds_md_levels (samples : ℕ → ℚ) (size_1 n : ℕ) :
    ∀ fuel i (s : GenState), rangeBounds s.m →
      rangeBounds (md_levels samples size_1 n fuel i s).m := by
  intro fuel
  induction fuel with
  | zero => exact fun i s h => h
  | succ f ih =>
    intro i s h
    rw [md_levels]
    exact ih (i + 1) _ (rangeBounds_md_level h samples size_1 _)

theorem rangeBounds_ds_quad {s : GenState} (h : rangeBounds s.m)
    (samples : ℕ → ℚ) (quad_len x0 y0 : ℕ) :
    rangeBounds (ds_quad samples quad_len x0 y0 s).m := by
  simp only [ds_quad]
  exact rangeBounds_set (rangeBounds_set (rangeBounds_set h _ _ _) _ _ _) _ _ _

theorem rangeBounds_ds_col {s : GenState} (h : rangeBounds s.m)
    (samples : ℕ → ℚ) (size_1 quad_len x0 : ℕ) :
    rangeBounds (ds_col samples size_1 quad_len x0 s).m := by
  refine rangeBounds_set ?_ _ _ _
  exact foldl_preserve (fun s => rangeBounds s.m) _ _
    (fun s y0 _ hs => rangeBounds_ds_quad hs samples quad_len x0 y0) s h

theorem rangeBounds_ds_rowEnd {s : GenState} (h : rangeBounds s.m)
    (samples : ℕ → ℚ) (size_1 quad_len : ℕ) :
    rangeBounds (ds_rowEnd samples size_1 quad_len s).m := by
  refine foldl_preserve (fun acc : GenState × ℚ => rangeBounds acc.1.m) _ _
    (fun acc y0 _ hacc => ?_) (s, s.m.get size_1 0) h
  exact rangeBounds_set hacc _ _ _

theorem rangeBounds_ds_level {s : GenState} (h : rangeBounds s.m)
    (samples : ℕ → ℚ) (size_1 quad_len : ℕ) :
    rangeBounds (ds_level samples size_1 quad_len s).m := by
  refine rangeBounds_ds_rowEnd ?_ samples size_1 quad_len
  exact foldl_preserve (fun s => rangeBounds s.m) _ _
    (fun s x0 _ hs => rangeBounds_ds_col hs samples size_1 quad_len x0) s h

theorem rangeBounds_ds_levels (samples : ℕ → ℚ) (size_1 n : ℕ) :
    ∀ fuel i (s : GenState), rangeBounds s.m →
      rangeBounds (ds_levels samples size_1 n fuel i s).m := by
  intro fuel
  induction fuel with
  | zero => exact fun i s h => h
  | succ f ih =>
    intro i s h
    rw [ds_levels]
    exact ih (i + 1) _ (rangeBounds_ds_level h samples size_1 _)

theorem rangeBounds_md_ok {m m' : Heightmap} (h : rangeBounds m)
    {n0 : ℕ} {samples : ℕ → ℚ}
    (hok : midpoint_displacement m n0 samples = .ok m') : rangeBounds m' := by
  rw [midpoint_displacement] at hok
  split at hok
  · cases hok
  · simp only [Except.ok.injEq] at hok
    rw [← hok]
    exact rangeBounds_md_levels samples _ _ _ _ _ h

theorem rangeBounds_ds_ok {m m' : Heightmap} (h : rangeBounds m)
    {n0 : ℕ} {samples : ℕ → ℚ}
    (hok : diamond_square m n0 samples = .ok m') : rangeBounds m' := by
  rw [diamond_square] at hok
  split at hok
  · cases hok
  · simp only [Except.ok.injEq] at hok
    rw [← hok]
    exact rangeBounds_ds_levels samples _ _ _ _ _ h

theorem rangeBounds_applyOp {m : Heightmap} (h : rangeBounds m) (op : HmOp) :
    rangeBounds (applyOp m op) := by
  cases op with
  | setOp cx cy v => exact rangeBounds_set h cx cy v
  | addSurfaceOp f mult => exact rangeBounds_add_surface m f mult
  | mdOp n0 samples =>
    cases hmd : midpoint_displacement m n0 samples with
    | error e => simpa [applyOp, hmd] using h
    | ok m' => simpa [applyOp, hmd] using rangeBounds_md_ok h hmd
  | dsOp n0 samples =>
    cases hds : diamond_square m n0 samples with
    | error e => simpa [applyOp, hds] using h
    | ok m' => simpa [applyOp, hds] using rangeBounds_ds_ok h hds
  | voronoiOp points w dist =>
    exact foldl_preserve rangeBounds _ _
      (fun g c _ hg => rangeBounds_set hg _ _ _) m h
  | faultOp v offset displacement =>
    refine foldl_preserve rangeBounds _ _ (fun g c _ hg => ?_) m h
    simp only [fault_step]
    split
    · exact rangeBounds_set hg _ _ _
    · exact hg

/-- C1 (amended): starting from `new_flat`, after any sequence of `set`,
`add_surface`, displacement, Voronoi and fault calls the cached range
*contains* every stored height (`range.0 ≤ h ≤ range.1` for all of
them); and after a sequence ending in the bulk `add_surface` the cached
range moreover equals the full linear re-scan exactly.  (Exact equality
after an arbitrary `set` fails — see the counterexample — because `set`
only ever widens the cached range.) -/
theorem range_bounds_all_heights (dim : ℕ × ℕ) (size : ℚ × ℚ)
    (ops : List HmOp) :
    rangeBounds (applyOps (new_flat dim size) ops) ∧
    ∀ f mult, (applyOps (new_flat dim size)
        (ops ++ [.addSurfaceOp f mult])).range =
      range_scan (applyOps (new_flat dim size)
        (ops ++ [.addSurfaceOp f mult])).data := by
  constructor
  · refine foldl_preserve rangeBounds applyOp ops
      (fun g op _ hg => rangeBounds_applyOp hg op) _ ?_
    intro v hv
    rw [List.eq_of_mem_replicate hv]
    exact ⟨le_refl 0, le_refl 0⟩
  · intro f mult
    rw [applyOps, List.foldl_append]
    rfl

/-- Witness for C1 (amended), reading off the bound for the single
stored value `5` after an in-bounds `set` on a 1×1 grid. -/
theorem range_bounds_all_heights_witness :
    (applyOps (new_flat (1, 1) (1, 1)) [.setOp 0 0 5]).range.1 ≤ 5 ∧
    (5 : ℚ) ≤ (applyOps (new_flat (1, 1) (1, 1)) [.setOp 0 0 5]).range.2 := by
  refine (range_bounds_all_heights (1, 1) (1, 1) [.setOp 0 0 5]).1 5 ?_
  show (5 : ℚ) ∈ ((new_flat (1, 1) (1, 1)).set 0 0 5).data
  simp [new_flat, Heightmap.set, List.replicate]

/-- Counterexample to C1 as stated: on the (valid) 1×1 grid, the single
in-bounds call `set(0, 0, 5)` overwrites the only stored value, after
which the cached range is the merely-widened `(0, 5)` while the full
linear scan gives `(5, 5)`. -/
theorem range_neq_scan_after_set :
    ((new_flat (1, 1) (1, 1)).set 0 0 5).range = (0, 5) ∧
    range_scan ((new_flat (1, 1) (1, 1)).set 0 0 5).data = (5, 5) ∧
    ((0, 5) : ℚ × ℚ) ≠ (5, 5) := by
  refine ⟨?_, ?_, by norm_num [Prod.ext_iff]⟩
  · simp only [new_flat, Heightmap.set]
    norm_num [min_def, max_def]
  · simp only [new_flat, Heightmap.set, List.replicate, range_scan, List.set,
      List.foldl]
    norm_num [Fmax, Fmin, min_def, max_def]

/-! ## Claim C3: termination of the ray-cast traversal -/

/-- From an edge "cell" (`cell.0 + 1 = dim.0` or `cell.1 + 1 = dim.1`)
the loop body executes `continue` without modifying `cell`, so the loop
runs forever: no amount of fuel makes `march` return. -/
theorem march_edge_none (dim : ℕ × ℕ) (len_frac : ℚ × ℚ) (origin dir : V3)
    (max_t : ℚ) (triInt : ℕ × ℕ → Option ℚ × Option ℚ) (cell : ℕ × ℕ)
    (hedge : cell.1 + 1 = dim.1 ∨ cell.2 + 1 = dim.2) :
    ∀ fuel, march dim len_frac origin dir max_t triInt fuel cell = none := by
  intro fuel
  induction fuel with
  | zero => rfl
  | succ f ih =>
    simp only [march, march_step]
    rw [if_pos hedge]
    exact ih

/-- C3 is false of the code (code_bug): when the clipped ray's entry
point lies exactly on the far x boundary of the grid, `cell_at_coord`
returns the entry cell with `cell.0 = dim.0 - 1`, and the loop body's
`continue` (src/heightmap/ncollide_impls.rs:108-110) goes round without
advancing the cell, so the traversal never terminates — here: the
fuel-indexed model never returns, whatever the fuel and whatever the
triangle intersections say. -/
theorem ray_traversal_edge_entry_diverges (m : Heightmap)
    (h2x : 2 ≤ m.dim.1) (hsx : 0 < m.size.1)
    (hlfx : m.len_frac.1 = m.size.1 / ((m.dim.1 - 1 : ℕ) : ℚ))
    (origin dir : V3) (min_t max_t : ℚ)
    (triInt : ℕ × ℕ → Option ℚ × Option ℚ)
    (hx : origin.x + dir.x * min_t = m.size.1)
    (hy0 : 0 ≤ origin.y + dir.y * min_t)
    (hy1 : origin.y + dir.y * min_t ≤ m.size.2) :
    ∀ fuel,
      toi_and_normal m origin dir (some (min_t, max_t)) triInt fuel = none := by
  intro fuel
  have hdx : ((m.dim.1 - 1 : ℕ) : ℚ) ≠ 0 := Nat.cast_ne_zero.2 (by omega)
  have keyx : m.size.1 / m.len_frac.1 = ((m.dim.1 - 1 : ℕ) : ℚ) := by
    rw [hlfx]
    field_simp
  have hcell : m.cell_at_coord (origin.x + dir.x * min_t)
      (origin.y + dir.y * min_t) =
      some (m.dim.1 - 1,
        (⌊(origin.y + dir.y * min_t) / m.len_frac.2⌋).toNat) := by
    rw [hx, Heightmap.cell_at_coord, if_pos ⟨le_of_lt hsx, le_refl _⟩,
      if_pos ⟨hy0, hy1⟩, keyx, Int.floor_natCast, Int.toNat_natCast]
  simp only [toi_and_normal, hcell]
  exact march_edge_none m.dim m.len_frac origin dir max_t triInt _
    (Or.inl (by omega)) fuel

/-- Witness for C3 on a concrete grid and ray entering at the far x
boundary. -/
theorem ray_traversal_edge_entry_diverges_witness :
    toi_and_normal gC6 ⟨3, 1, 0⟩ ⟨-1, 0, 0⟩ (some (1, 5))
      (fun _ => (none, none)) 7 = none := by
  have h := ray_traversal_edge_entry_diverges gC6 (by norm_num [gC6])
    (by norm_num [gC6]) (by norm_num [gC6]) ⟨3, 1, 0⟩ ⟨-1, 0, 0⟩ 1 5
    (fun _ => (none, none)) (by norm_num [gC6]) (by norm_num) (by norm_num [gC6])
  exact h 7

/-! ## Claim C8: the fractal displacements never write the corners -/

theorem ctz_two_pow {fuel k : ℕ} (h : k < fuel) : ctz fuel (2 ^ k) = k := by
  induction fuel generalizing k with
  | zero => omega
  | succ f ih =>
    cases k with
    | zero => simp [ctz]
    | succ j =>
      have hmod : 2 ^ (j + 1) % 2 = 0 := by
        simp [Nat.pow_succ, Nat.mul_mod_left]
      have hdiv : 2 ^ (j + 1) / 2 = 2 ^ j := by
        rw [Nat.pow_succ]
        exact Nat.mul_div_cancel _ (by norm_num)
      rw [ctz, hmod]
      simp only [if_neg (by norm_num : (0 : ℕ) ≠ 1)]
      rw [hdiv, ih (by omega)]

theorem trailing_zeros64_two_pow {k : ℕ} (h : k < 64) :
    trailing_zeros64 (2 ^ k) = k := by
  rw [trailing_zeros64, if_neg (show ¬(2 : ℕ) ^ k = 0 by positivity)]
  exact ctz_two_pow h

theorem disp_check_pow2 {k : ℕ} (h : k < 64) :
    disp_check (2 ^ k + 1) (2 ^ k + 1) = none := by
  have h1 : (2 : ℕ) ^ k + 1 - 1 = 2 ^ k := by simp
  have h2 : powWrap2 k = 2 ^ k := by
    rw [powWrap2]
    exact Nat.mod_eq_of_lt (Nat.pow_lt_pow_right (by norm_num) h)
  rw [disp_check, if_neg (show ¬((2 : ℕ) ^ k + 1 ≠ 2 ^ k + 1) by omega), h1,
    trailing_zeros64_two_pow h, h2,
    if_neg (show ¬((2 : ℕ) ^ k + 1 ≠ 2 ^ k + 1) by omega)]

/-- A `set` at a non-corner vertex of the square grid leaves every corner
unchanged. -/
theorem get_set_ne_of_corner {m : Heightmap} {S : ℕ} (hdim : m.dim.1 = S + 1)
    (a b : ℕ) (v : ℚ) (ha : a ≤ S) (hnc : ¬IsCorner S (a, b))
    {c : ℕ × ℕ} (hc : IsCorner S c) :
    (m.set a b v).get c.1 c.2 = m.get c.1 c.2 := by
  refine m.get_set_ne' a b c.1 c.2 v (by omega) ?_ ?_
  · rcases hc.1 with h | h <;> omega
  · intro h
    rw [← h] at hnc
    exact hnc hc


/-- The corner-preservation invariant threaded through a displacement
pass: the grid stays square of side `S + 1` and every corner still holds
its original value. -/
def CornersFrom (S : ℕ) (m0 : Heightmap) (s : GenState) : Prop :=
  s.m.dim.1 = S + 1 ∧
  ∀ c : ℕ × ℕ, IsCorner S c → s.m.get c.1 c.2 = m0.get c.1 c.2

theorem quad_origins_bound {S q x0 y0 : ℕ} (h : (x0, y0) ∈ quad_origins S q) :
    x0 + q ≤ S ∧ y0 + q ≤ S := by
  simp only [quad_origins, List.mem_flatMap, List.mem_map, List.mem_range] at h
  obtain ⟨qx, hqx, qy, hqy, heq⟩ := h
  cases heq
  constructor
  · calc qx * q + q = (qx + 1) * q := by ring
      _ ≤ S / q * q := Nat.mul_le_mul_right q hqx
      _ ≤ S := Nat.div_mul_le_self S q
  · calc qy * q + q = (qy + 1) * q := by ring
      _ ≤ S / q * q := Nat.mul_le_mul_right q hqy
      _ ≤ S := Nat.div_mul_le_self S q

theorem not_corner_of_mid {S q w z : ℕ} (hq : 0 < q / 2) (_hw : w ≤ S)
    (hz : z + q ≤ S) : ¬IsCorner S (w, z + q / 2) ∧ ¬IsCorner S (z + q / 2, w) := by
  have h1 : 0 < z + q / 2 := by omega
  have h2 : z + q / 2 < S := by
    have : q / 2 < q := Nat.div_lt_self (by omega) (by norm_num)
    omega
  constructor
  · intro hcor
    rcases hcor.2 with h | h <;> omega
  · intro hcor
    rcases hcor.1 with h | h <;> omega

theorem cornersFrom_md_quad {S : ℕ} {m0 : Heightmap} {s : GenState}
    (h : CornersFrom S m0 s) (samples : ℕ → ℚ) {q x0 y0 : ℕ}
    (hq : 0 < q / 2) (hx : x0 + q ≤ S) (hy : y0 + q ≤ S) :
    CornersFrom S m0 (md_quad samples q x0 y0 s) := by
  obtain ⟨hdim, hcor⟩ := h
  refine ⟨hdim, fun c hc => ?_⟩
  have hym := (not_corner_of_mid hq (by omega : x0 ≤ S) hy).1
  have hym2 := (not_corner_of_mid hq (by omega : x0 + q ≤ S) hy).1
  have hxm := (not_corner_of_mid hq (by omega : y0 ≤ S) hx).2
  have hxm2 := (not_corner_of_mid hq (by omega : y0 + q ≤ S) hx).2
  have hxym : ¬IsCorner S (x0 + q / 2, y0 + q / 2) :=
    (not_corner_of_mid hq (by omega : y0 + q / 2 ≤ S) hx).2
  simp only [md_quad]
  refine (get_set_ne_of_corner ?_ _ _ _ (by omega) hxym hc).trans
    ((get_set_ne_of_corner ?_ _ _ _ (by omega) hxm2 hc).trans
    ((get_set_ne_of_corner ?_ _ _ _ (by omega) hxm hc).trans
    ((get_set_ne_of_corner ?_ _ _ _ (by omega) hym2 hc).trans
    ((get_set_ne_of_corner ?_ _ _ _ (by omega) hym hc).trans
      (hcor c hc))))) <;> exact hdim

theorem cornersFrom_md_level {S : ℕ} {m0 : Heightmap} {s : GenState}
    (h : CornersFrom S m0 s) (samples : ℕ → ℚ) {q : ℕ} (hq : 0 < q / 2) :
    CornersFrom S m0 (md_level samples S q s) := by
  refine foldl_preserve (CornersFrom S m0) _ _ (fun t p hp ht => ?_) s h
  obtain ⟨hx, hy⟩ := quad_origins_bound (by simpa using hp)
  exact cornersFrom_md_quad ht samples hq hx hy

theorem cornersFrom_md_levels {S : ℕ} {m0 : Heightmap} (samples : ℕ → ℚ)
    (n : ℕ) :
    ∀ fuel i (s : GenState), (0 < fuel → fuel + i ≤ n) → S = 2 ^ n →
      CornersFrom S m0 s → CornersFrom S m0 (md_levels samples S n fuel i s) := by
  intro fuel
  induction fuel with
  | zero => exact fun i s _ _ h => h
  | succ f ih =>
    intro i s hfi hS h
    rw [md_levels]
    have hin : i < n := by omega
    refine ih (i + 1) _ (by omega) hS (cornersFrom_md_level h samples ?_)
    have : 2 ≤ 2 ^ (n - i) := by
      calc (2 : ℕ) = 2 ^ 1 := rfl
        _ ≤ 2 ^ (n - i) := Nat.pow_le_pow_right (by norm_num) (by omega)
    omega

theorem cornersFrom_ds_quad {S : ℕ} {m0 : Heightmap} {s : GenState}
    (h : CornersFrom S m0 s) (samples : ℕ → ℚ) {q x0 y0 : ℕ}
    (hq : 0 < q / 2) (hx : x0 + q ≤ S) (hy : y0 + q ≤ S) :
    CornersFrom S m0 (ds_quad samples q x0 y0 s) := by
  obtain ⟨hdim, hcor⟩ := h
  refine ⟨hdim, fun c hc => ?_⟩
  have hym := (not_corner_of_mid hq (by omega : x0 ≤ S) hy).1
  have hxm := (not_corner_of_mid hq (by omega : y0 ≤ S) hx).2
  have hxym : ¬IsCorner S (x0 + q / 2, y0 + q / 2) :=
    (not_corner_of_mid hq (by omega : y0 + q / 2 ≤ S) hx).2
  simp only [ds_quad]
  refine (get_set_ne_of_corner ?_ _ _ _ (by omega) hxym hc).trans
    ((get_set_ne_of_corner ?_ _ _ _ (by omega) hxm hc).trans
    ((get_set_ne_of_corner ?_ _ _ _ (by omega) hym hc).trans
      (hcor c hc))) <;> exact hdim

theorem cornersFrom_ds_colEnd {S : ℕ} {m0 : Heightmap} {s : GenState}
    (h : CornersFrom S m0 s) (samples : ℕ → ℚ) {q x0 : ℕ}
    (hq : 0 < q / 2) (hx : x0 + q ≤ S) :
    CornersFrom S m0 (ds_colEnd samples q x0 S s) := by
  obtain ⟨hdim, hcor⟩ := h
  refine ⟨hdim, fun c hc => ?_⟩
  have hxm := (not_corner_of_mid hq (le_refl S) hx).2
  simp only [ds_colEnd]
  rw [get_set_ne_of_corner hdim _ _ _ (by omega) hxm hc]
  exact hcor c hc

theorem cornersFrom_ds_col {S : ℕ} {m0 : Heightmap} {s : GenState}
    (h : CornersFrom S m0 s) (samples : ℕ → ℚ) {q x0 : ℕ}
    (hq : 0 < q / 2) (hx : x0 + q ≤ S) :
    CornersFrom S m0 (ds_col samples S q x0 s) := by
  refine cornersFrom_ds_colEnd ?_ samples hq hx
  refine foldl_preserve (CornersFrom S m0) _ _ (fun t y0 hy ht => ?_) s h
  simp only [List.mem_map, List.mem_range] at hy
  obtain ⟨qy, hqy, rfl⟩ := hy
  have hyb : qy * q + q ≤ S := by
    calc qy * q + q = (qy + 1) * q := by ring
      _ ≤ S / q * q := Nat.mul_le_mul_right q hqy
      _ ≤ S := Nat.div_mul_le_self S q
  exact cornersFrom_ds_quad ht samples hq hx hyb

theorem cornersFrom_ds_rowEnd {S : ℕ} {m0 : Heightmap} {s : GenState}
    (h : CornersFrom S m0 s) (samples : ℕ → ℚ) {q : ℕ} (hq : 0 < q / 2) :
    CornersFrom S m0 (ds_rowEnd samples S q s) := by
  rw [ds_rowEnd]
  refine foldl_preserve (fun acc : GenState × ℚ => CornersFrom S m0 acc.1)
    (ds_rowEndStep samples q S) _ ?_ (s, s.m.get S 0) h
  intro acc y0 hy hacc
  · simp only [List.mem_map, List.mem_range] at hy
    obtain ⟨qy, hqy, rfl⟩ := hy
    have hyb : qy * q + q ≤ S := by
      calc qy * q + q = (qy + 1) * q := by ring
        _ ≤ S / q * q := Nat.mul_le_mul_right q hqy
        _ ≤ S := Nat.div_mul_le_self S q
    obtain ⟨hdim, hcor⟩ := hacc
    refine ⟨hdim, fun c hc => ?_⟩
    have hym := (not_corner_of_mid hq (le_refl S) hyb).1
    simp only [ds_rowEndStep]
    rw [get_set_ne_of_corner hdim _ _ _ (by omega) hym hc]
    exact hcor c hc

theorem cornersFrom_ds_level {S : ℕ} {m0 : Heightmap} {s : GenState}
    (h : CornersFrom S m0 s) (samples : ℕ → ℚ) {q : ℕ} (hq : 0 < q / 2) :
    CornersFrom S m0 (ds_level samples S q s) := by
  refine cornersFrom_ds_rowEnd ?_ samples hq
  refine foldl_preserve (CornersFrom S m0) _ _ (fun t x0 hx ht => ?_) s h
  simp only [List.mem_map, List.mem_range] at hx
  obtain ⟨qx, hqx, rfl⟩ := hx
  have hxb : qx * q + q ≤ S := by
    calc qx * q + q = (qx + 1) * q := by ring
      _ ≤ S / q * q := Nat.mul_le_mul_right q hqx
      _ ≤ S := Nat.div_mul_le_self S q
  exact cornersFrom_ds_col ht samples hq hxb

theorem cornersFrom_ds_levels {S : ℕ} {m0 : Heightmap} (samples : ℕ → ℚ)
    (n : ℕ) :
    ∀ fuel i (s : GenState), (0 < fuel → fuel + i ≤ n) → S = 2 ^ n →
      CornersFrom S m0 s → CornersFrom S m0 (ds_levels samples S n fuel i s) := by
  intro fuel
  induction fuel with
  | zero => exact fun i s _ _ h => h
  | succ f ih =>
    intro i s hfi hS h
    rw [ds_levels]
    have hin : i < n := by omega
    refine ih (i + 1) _ (by omega) hS (cornersFrom_ds_level h samples ?_)
    have : 2 ≤ 2 ^ (n - i) := by
      calc (2 : ℕ) = 2 ^ 1 := rfl
        _ ≤ 2 ^ (n - i) := Nat.pow_le_pow_right (by norm_num) (by omega)
    omega

/-- C8: on a valid square `2^k + 1` grid, `midpoint_displacement` and
`diamond_square` both succeed — with any distributions, sample streams
and skip level — and leave all four corner vertices exactly as they
were: every write of either algorithm has an odd multiple of the current
`mid_len` in one of its coordinates, which is never `0` or `2^k`. -/
theorem displacement_preserves_corners (k : ℕ) (hk : k < 64)
    (m : Heightmap) (hdx : m.dim.1 = 2 ^ k + 1) (hdy : m.dim.2 = 2 ^ k + 1)
    (n0 : ℕ) (samples samples' : ℕ → ℚ) :
    ∃ m1 m2, midpoint_displacement m n0 samples = .ok m1 ∧
      diamond_square m n0 samples' = .ok m2 ∧
      ∀ c : ℕ × ℕ, IsCorner (2 ^ k) c →
        m1.get c.1 c.2 = m.get c.1 c.2 ∧ m2.get c.1 c.2 = m.get c.1 c.2 := by
  have hchk : disp_check m.len0 m.len1 = none := by
    rw [Heightmap.len0, Heightmap.len1, hdx, hdy]
    exact disp_check_pow2 hk
  have hS1 : m.len0 - 1 = 2 ^ k := by
    rw [Heightmap.len0, hdx]
    simp
  have htz : trailing_zeros64 (m.len0 - 1) = k := by
    rw [hS1]
    exact trailing_zeros64_two_pow hk
  have hstart : CornersFrom (2 ^ k) m ⟨m, 0⟩ := ⟨hdx, fun c _ => rfl⟩
  have hmd : CornersFrom (2 ^ k) m
      (md_levels samples (m.len0 - 1) (trailing_zeros64 (m.len0 - 1))
        (trailing_zeros64 (m.len0 - 1) - n0) n0 ⟨m, 0⟩) := by
    rw [htz, hS1]
    exact cornersFrom_md_levels samples k (k - n0) n0 ⟨m, 0⟩ (by omega) rfl hstart
  have hds : CornersFrom (2 ^ k) m
      (ds_levels samples' (m.len0 - 1) (trailing_zeros64 (m.len0 - 1))
        (trailing_zeros64 (m.len0 - 1) - n0) n0 ⟨m, 0⟩) := by
    rw [htz, hS1]
    exact cornersFrom_ds_levels samples' k (k - n0) n0 ⟨m, 0⟩ (by omega) rfl hstart
  refine ⟨_, _, ?_, ?_, fun c hc => ⟨hmd.2 c hc, hds.2 c hc⟩⟩
  · rw [midpoint_displacement, hchk]
  · rw [diamond_square, hchk]

/-- Witness for C8: a 3×3 grid with a nonconstant sample stream; the
corner `(2, 0)` keeps its value `2`. -/
theorem displacement_preserves_corners_witness :
    ∃ m1 m2, midpoint_displacement g3 0 (fun j => (j : ℚ) + 1) = .ok m1 ∧
      diamond_square g3 0 (fun j => (j : ℚ) * 2) = .ok m2 ∧
      ∀ c : ℕ × ℕ, IsCorner (2 ^ 1) c →
        m1.get c.1 c.2 = g3.get c.1 c.2 ∧ m2.get c.1 c.2 = g3.get c.1 c.2 := by
  exact displacement_preserves_corners 1 (by norm_num) g3 (by norm_num [g3])
    (by norm_num [g3]) 0 (fun j => (j : ℚ) + 1) (fun j => (j : ℚ) * 2)

/-! ## Claim C4: zero-variance displacement versus bilinear interpolation -/

theorem bilinear_mid2_y (h00 h01 h10 h11 S x y0 y1 : ℚ) :
    mid2 (bilinear h00 h01 h10 h11 S x y0) (bilinear h00 h01 h10 h11 S x y1) =
      bilinear h00 h01 h10 h11 S x ((y0 + y1) / 2) := by
  simp only [bilinear, mid2]
  ring

theorem bilinear_mid2_x (h00 h01 h10 h11 S x0 x1 y : ℚ) :
    mid2 (bilinear h00 h01 h10 h11 S x0 y) (bilinear h00 h01 h10 h11 S x1 y) =
      bilinear h00 h01 h10 h11 S ((x0 + x1) / 2) y := by
  simp only [bilinear, mid2]
  ring

theorem bilinear_mid4_center (h00 h01 h10 h11 S x0 x1 y0 y1 : ℚ) :
    mid4 (bilinear h00 h01 h10 h11 S x0 ((y0 + y1) / 2))
      (bilinear h00 h01 h10 h11 S x1 ((y0 + y1) / 2))
      (bilinear h00 h01 h10 h11 S ((x0 + x1) / 2) y0)
      (bilinear h00 h01 h10 h11 S ((x0 + x1) / 2) y1) =
      bilinear h00 h01 h10 h11 S ((x0 + x1) / 2) ((y0 + y1) / 2) := by
  simp only [bilinear, mid4]
  ring

theorem cast_mid_add {q : ℕ} (hq2 : q = 2 * (q / 2)) (z : ℕ) :
    ((z + q / 2 : ℕ) : ℚ) = (((z : ℕ) : ℚ) + ((z + q : ℕ) : ℚ)) / 2 := by
  have h : (q : ℚ) = 2 * ((q / 2 : ℕ) : ℚ) := by
    calc (q : ℚ) = ((2 * (q / 2) : ℕ) : ℚ) := by rw [← hq2]
      _ = 2 * ((q / 2 : ℕ) : ℚ) := by push_cast; ring
  push_cast
  rw [h]
  ring

theorem bilinearN_mid2_y (h00 h01 h10 h11 : ℚ) {q : ℕ}
    (hq2 : q = 2 * (q / 2)) (S x y0 : ℕ) :
    mid2 (bilinearN h00 h01 h10 h11 S x y0)
      (bilinearN h00 h01 h10 h11 S x (y0 + q)) =
      bilinearN h00 h01 h10 h11 S x (y0 + q / 2) := by
  simp only [bilinearN]
  rw [bilinear_mid2_y, cast_mid_add hq2]

theorem bilinearN_mid2_x (h00 h01 h10 h11 : ℚ) {q : ℕ}
    (hq2 : q = 2 * (q / 2)) (S x0 y : ℕ) :
    mid2 (bilinearN h00 h01 h10 h11 S x0 y)
      (bilinearN h00 h01 h10 h11 S (x0 + q) y) =
      bilinearN h00 h01 h10 h11 S (x0 + q / 2) y := by
  simp only [bilinearN]
  rw [bilinear_mid2_x, cast_mid_add hq2]

theorem bilinearN_mid4 (h00 h01 h10 h11 : ℚ) {q : ℕ}
    (hq2 : q = 2 * (q / 2)) (S x0 y0 : ℕ) :
    mid4 (bilinearN h00 h01 h10 h11 S x0 (y0 + q / 2))
      (bilinearN h00 h01 h10 h11 S (x0 + q) (y0 + q / 2))
      (bilinearN h00 h01 h10 h11 S (x0 + q / 2) y0)
      (bilinearN h00 h01 h10 h11 S (x0 + q / 2) (y0 + q)) =
      bilinearN h00 h01 h10 h11 S (x0 + q / 2) (y0 + q / 2) := by
  simp only [bilinearN]
  rw [cast_mid_add hq2 x0, cast_mid_add hq2 y0, bilinear_mid4_center]

theorem bilinearN_corners (h00 h01 h10 h11 : ℚ) {S : ℕ} (hS : S ≠ 0) :
    bilinearN h00 h01 h10 h11 S 0 0 = h00 ∧
    bilinearN h00 h01 h10 h11 S 0 S = h01 ∧
    bilinearN h00 h01 h10 h11 S S 0 = h10 ∧
    bilinearN h00 h01 h10 h11 S S S = h11 := by
  have hSQ : ((S : ℕ) : ℚ) ≠ 0 := Nat.cast_ne_zero.2 hS
  refine ⟨?_, ?_, ?_, ?_⟩ <;>
    · simp only [bilinearN, bilinear, Nat.cast_zero]
      field_simp
      ring

theorem quad_origins_mem {S q : ℕ} {p : ℕ × ℕ} :
    p ∈ quad_origins S q ↔
      ∃ qx qy, qx < S / q ∧ qy < S / q ∧ p = (qx * q, qy * q) := by
  cases p with
  | mk a b =>
    simp only [quad_origins, List.mem_flatMap, List.mem_map, List.mem_range]
    constructor
    · rintro ⟨qx, hqx, qy, hqy, heq⟩
      exact ⟨qx, qy, hqx, hqy, heq.symm⟩
    · rintro ⟨qx, qy, hqx, hqy, heq⟩
      exact ⟨qx, hqx, qy, hqy, heq.symm⟩

/-- Every write target of a quad has an odd multiple of `q/2` in some
coordinate, hence is never a `q`-lattice point. -/
theorem mdTargets_not_lattice {q : ℕ} (hq2 : q = 2 * (q / 2))
    (hmid : 0 < q / 2) {p t : ℕ × ℕ} (hpx : q ∣ p.1) (hpy : q ∣ p.2)
    (ht : t ∈ mdTargets q p) : ¬(q ∣ t.1 ∧ q ∣ t.2) := by
  obtain ⟨u, hu⟩ := hpx
  obtain ⟨w, hw⟩ := hpy
  have hkey : ∀ z : ℕ, ¬q ∣ q * z + q / 2 := by
    intro z hdvd
    have h1 : (q * z + q / 2) % q = q / 2 := by
      rw [Nat.mul_add_mod]
      exact Nat.mod_eq_of_lt (by omega)
    have h0 : (q * z + q / 2) % q = 0 := Nat.dvd_iff_mod_eq_zero.1 hdvd
    omega
  simp only [mdTargets, List.mem_cons, List.not_mem_nil, or_false] at ht
  rcases ht with rfl | rfl | rfl | rfl | rfl <;>
    rintro ⟨hdx, hdy⟩
  · exact hkey w (by simpa [hw] using hdy)
  · exact hkey w (by simpa [hw] using hdy)
  · exact hkey u (by simpa [hu] using hdx)
  · exact hkey u (by simpa [hu] using hdx)
  · exact hkey u (by simpa [hu] using hdx)

/-- Cascading `set`s at pairwise-distinct in-bounds vertices: each target
ends up with its stored value, and everything else is untouched. -/
theorem get_after_sets (nx ny : ℕ) :
    ∀ (l : List ((ℕ × ℕ) × ℚ)) (m : Heightmap), m.dim = (nx, ny) →
      m.data.length = nx * ny →
      (∀ t ∈ l, t.1.1 < nx ∧ t.1.2 < ny) → (l.map Prod.fst).Nodup →
      (l.foldl (fun g t => g.set t.1.1 t.1.2 t.2) m).dim = m.dim ∧
      (l.foldl (fun g t => g.set t.1.1 t.1.2 t.2) m).data.length =
        m.data.length ∧
      (∀ t ∈ l,
        (l.foldl (fun g t => g.set t.1.1 t.1.2 t.2) m).get t.1.1 t.1.2 = t.2) ∧
      (∀ x y, x < nx → (x, y) ∉ l.map Prod.fst →
        (l.foldl (fun g t => g.set t.1.1 t.1.2 t.2) m).get x y = m.get x y) := by
  intro l
  induction l with
  | nil =>
    exact fun m _ _ _ _ =>
      ⟨rfl, rfl, fun t ht => absurd ht (List.not_mem_nil t),
        fun x y _ _ => rfl⟩
  | cons t rest ih =>
    intro m hdim hlen hb hnd
    rw [List.map_cons, List.nodup_cons] at hnd
    have hbt := hb t (List.mem_cons_self t rest)
    have hdim1 : (m.set t.1.1 t.1.2 t.2).dim = (nx, ny) := hdim
    have hlen1 : (m.set t.1.1 t.1.2 t.2).data.length = nx * ny := by
      rw [Heightmap.set_data_length]
      exact hlen
    obtain ⟨ihdim, ihlen, ihget, ihother⟩ := ih (m.set t.1.1 t.1.2 t.2) hdim1
      hlen1 (fun u hu => hb u (List.mem_cons_of_mem t hu)) hnd.2
    rw [List.foldl_cons]
    refine ⟨ihdim.trans rfl, ihlen.trans (Heightmap.set_data_length m _ _ _), ?_, ?_⟩
    · intro u hu
      rcases List.mem_cons.1 hu with rfl | hu'
      · rw [ihother u.1.1 u.1.2 hbt.1 hnd.1]
        refine Heightmap.get_set_self m u.1.1 u.1.2 u.2 ?_
        rw [hlen, hdim]
        exact flat_idx_lt hbt.1 hbt.2
      · exact ihget u hu'
    · intro x y hx hxy
      have hxy1 : (x, y) ∉ rest.map Prod.fst :=
        fun h => hxy (List.mem_cons_of_mem _ h)
      have hne : (x, y) ≠ t.1 := fun h => hxy (h ▸ List.mem_cons_self _ _)
      rw [ihother x y hx hxy1]
      refine Heightmap.get_set_ne' m t.1.1 t.1.2 x y t.2 ?_ ?_ ?_
      · rw [hdim]
        exact hbt.1
      · rw [hdim]
        exact hx
      · simpa using hne

/-- With the zero sample stream, an `md_quad` whose corner reads agree
with the bilinear interpolant writes exactly the interpolant's values at
its five targets and changes nothing else: the four edge midpoints are
2-way averages and the centre the 4-way average of the fresh midpoints,
which the bilinear midpoint identities collapse. -/
theorem md_quad_zero_writes (h00 h01 h10 h11 : ℚ) {S q nx ny : ℕ}
    (hq2 : q = 2 * (q / 2)) (hmid : 0 < q / 2) (hSx : S < nx) (hSy : S < ny)
    {m : Heightmap} (hdim : m.dim = (nx, ny)) (hlen : m.data.length = nx * ny)
    {x0 y0 : ℕ} (hx : x0 + q ≤ S) (hy : y0 + q ≤ S)
    (hdx : q ∣ x0) (hdy : q ∣ y0)
    (hInv : ∀ x y, q ∣ x → q ∣ y → x ≤ S → y ≤ S →
      m.get x y = bilinearN h00 h01 h10 h11 S x y) (k : ℕ) :
    (md_quad (fun _ => 0) q x0 y0 ⟨m, k⟩).m.dim = m.dim ∧
    (md_quad (fun _ => 0) q x0 y0 ⟨m, k⟩).m.data.length = m.data.length ∧
    (∀ t ∈ mdTargets q (x0, y0),
      (md_quad (fun _ => 0) q x0 y0 ⟨m, k⟩).m.get t.1 t.2 =
        bilinearN h00 h01 h10 h11 S t.1 t.2) ∧
    (∀ x y, x < nx → (x, y) ∉ mdTargets q (x0, y0) →
      (md_quad (fun _ => 0) q x0 y0 ⟨m, k⟩).m.get x y = m.get x y) := by
  have hq1 : q / 2 < q := by omega
  -- the four corner reads are interpolant values
  have hr00 : m.get x0 y0 = bilinearN h00 h01 h10 h11 S x0 y0 :=
    hInv x0 y0 hdx hdy (by omega) (by omega)
  have hr01 : m.get x0 (y0 + q) = bilinearN h00 h01 h10 h11 S x0 (y0 + q) :=
    hInv x0 (y0 + q) hdx (Nat.dvd_add hdy dvd_rfl) (by omega) (by omega)
  have hr10 : m.get (x0 + q) y0 = bilinearN h00 h01 h10 h11 S (x0 + q) y0 :=
    hInv (x0 + q) y0 (Nat.dvd_add hdx dvd_rfl) hdy (by omega) (by omega)
  have hr11 : m.get (x0 + q) (y0 + q) =
      bilinearN h00 h01 h10 h11 S (x0 + q) (y0 + q) :=
    hInv (x0 + q) (y0 + q) (Nat.dvd_add hdx dvd_rfl) (Nat.dvd_add hdy dvd_rfl)
      (by omega) (by omega)
  -- the five written values are interpolant values
  have hv1 : mid2 (m.get x0 y0) (m.get x0 (y0 + q)) + ((q / 2 : ℕ) : ℚ) * 0 =
      bilinearN h00 h01 h10 h11 S x0 (y0 + q / 2) := by
    rw [mul_zero, add_zero, hr00, hr01, bilinearN_mid2_y h00 h01 h10 h11 hq2]
  have hv2 : mid2 (m.get (x0 + q) y0) (m.get (x0 + q) (y0 + q)) +
      ((q / 2 : ℕ) : ℚ) * 0 =
      bilinearN h00 h01 h10 h11 S (x0 + q) (y0 + q / 2) := by
    rw [mul_zero, add_zero, hr10, hr11, bilinearN_mid2_y h00 h01 h10 h11 hq2]
  have hv3 : mid2 (m.get x0 y0) (m.get (x0 + q) y0) + ((q / 2 : ℕ) : ℚ) * 0 =
      bilinearN h00 h01 h10 h11 S (x0 + q / 2) y0 := by
    rw [mul_zero, add_zero, hr00, hr10, bilinearN_mid2_x h00 h01 h10 h11 hq2]
  have hv4 : mid2 (m.get x0 (y0 + q)) (m.get (x0 + q) (y0 + q)) +
      ((q / 2 : ℕ) : ℚ) * 0 =
      bilinearN h00 h01 h10 h11 S (x0 + q / 2) (y0 + q) := by
    rw [mul_zero, add_zero, hr01, hr11, bilinearN_mid2_x h00 h01 h10 h11 hq2]
  have hv5 :
      mid4 (mid2 (m.get x0 y0) (m.get x0 (y0 + q)) + ((q / 2 : ℕ) : ℚ) * 0)
        (mid2 (m.get (x0 + q) y0) (m.get (x0 + q) (y0 + q)) +
          ((q / 2 : ℕ) : ℚ) * 0)
        (mid2 (m.get x0 y0) (m.get (x0 + q) y0) + ((q / 2 : ℕ) : ℚ) * 0)
        (mid2 (m.get x0 (y0 + q)) (m.get (x0 + q) (y0 + q)) +
          ((q / 2 : ℕ) : ℚ) * 0) + ((q / 2 : ℕ) : ℚ) * 0 =
      bilinearN h00 h01 h10 h11 S (x0 + q / 2) (y0 + q / 2) := by
    rw [hv1, hv2, hv3, hv4, mul_zero, add_zero,
      bilinearN_mid4 h00 h01 h10 h11 hq2]
  -- the five writes as a cascade
  have H := get_after_sets nx ny
    [((x0, y0 + q / 2),
        mid2 (m.get x0 y0) (m.get x0 (y0 + q)) + ((q / 2 : ℕ) : ℚ) * 0),
     ((x0 + q, y0 + q / 2),
        mid2 (m.get (x0 + q) y0) (m.get (x0 + q) (y0 + q)) +
          ((q / 2 : ℕ) : ℚ) * 0),
     ((x0 + q / 2, y0),
        mid2 (m.get x0 y0) (m.get (x0 + q) y0) + ((q / 2 : ℕ) : ℚ) * 0),
     ((x0 + q / 2, y0 + q),
        mid2 (m.get x0 (y0 + q)) (m.get (x0 + q) (y0 + q)) +
          ((q / 2 : ℕ) : ℚ) * 0),
     ((x0 + q / 2, y0 + q / 2),
        mid4 (mid2 (m.get x0 y0) (m.get x0 (y0 + q)) + ((q / 2 : ℕ) : ℚ) * 0)
          (mid2 (m.get (x0 + q) y0) (m.get (x0 + q) (y0 + q)) +
            ((q / 2 : ℕ) : ℚ) * 0)
          (mid2 (m.get x0 y0) (m.get (x0 + q) y0) + ((q / 2 : ℕ) : ℚ) * 0)
          (mid2 (m.get x0 (y0 + q)) (m.get (x0 + q) (y0 + q)) +
            ((q / 2 : ℕ) : ℚ) * 0) + ((q / 2 : ℕ) : ℚ) * 0)]
    m hdim hlen
    (by
      intro u hu
      simp only [List.mem_cons, List.not_mem_nil, or_false] at hu
      rcases hu with rfl | rfl | rfl | rfl | rfl <;> dsimp only <;>
        exact ⟨by omega, by omega⟩)
    (by
      simp only [List.map_cons, List.map_nil, List.nodup_cons, List.mem_cons,
        List.not_mem_nil, or_false, List.nodup_nil, and_true, Prod.mk.injEq,
        not_or, true_and, not_false_iff, and_self, not_and]
      omega)
  obtain ⟨Hdim, Hlen, Hget, Hother⟩ := H
  refine ⟨Hdim, Hlen, ?_, ?_⟩
  · intro t ht
    simp only [mdTargets, List.mem_cons, List.not_mem_nil, or_false] at ht
    rcases ht with rfl | rfl | rfl | rfl | rfl
    · exact (Hget ((x0, y0 + q / 2),
        mid2 (m.get x0 y0) (m.get x0 (y0 + q)) + ((q / 2 : ℕ) : ℚ) * 0)
        (by simp)).trans hv1
    · exact (Hget ((x0 + q, y0 + q / 2),
        mid2 (m.get (x0 + q) y0) (m.get (x0 + q) (y0 + q)) +
          ((q / 2 : ℕ) : ℚ) * 0) (by simp)).trans hv2
    · exact (Hget ((x0 + q / 2, y0),
        mid2 (m.get x0 y0) (m.get (x0 + q) y0) + ((q / 2 : ℕ) : ℚ) * 0)
        (by simp)).trans hv3
    · exact (Hget ((x0 + q / 2, y0 + q),
        mid2 (m.get x0 (y0 + q)) (m.get (x0 + q) (y0 + q)) +
          ((q / 2 : ℕ) : ℚ) * 0) (by simp)).trans hv4
    · exact (Hget ((x0 + q / 2, y0 + q / 2),
        mid4 (mid2 (m.get x0 y0) (m.get x0 (y0 + q)) + ((q / 2 : ℕ) : ℚ) * 0)
          (mid2 (m.get (x0 + q) y0) (m.get (x0 + q) (y0 + q)) +
            ((q / 2 : ℕ) : ℚ) * 0)
          (mid2 (m.get x0 y0) (m.get (x0 + q) y0) + ((q / 2 : ℕ) : ℚ) * 0)
          (mid2 (m.get x0 (y0 + q)) (m.get (x0 + q) (y0 + q)) +
            ((q / 2 : ℕ) : ℚ) * 0) + ((q / 2 : ℕ) : ℚ) * 0)
        (by simp)).trans hv5
  · intro x y hxnx hxy
    refine Hother x y hxnx ?_
    simp only [List.map_cons, List.map_nil]
    simp only [mdTargets, List.mem_cons, List.not_mem_nil, or_false] at hxy
    simp only [List.mem_cons, List.not_mem_nil, or_false]
    exact hxy

theorem mdTargets_le {S q : ℕ} {p t : ℕ × ℕ} (hx : p.1 + q ≤ S)
    (hy : p.2 + q ≤ S) (ht : t ∈ mdTargets q p) : t.1 ≤ S ∧ t.2 ≤ S := by
  have hq1 : q / 2 ≤ q := Nat.div_le_self q 2
  simp only [mdTargets, List.mem_cons, List.not_mem_nil, or_false] at ht
  rcases ht with rfl | rfl | rfl | rfl | rfl <;> exact ⟨by omega, by omega⟩

/-- One full level of zero-sample `md_quad`s: the coarse lattice keeps
its interpolant values, every visited quad's five targets now hold
theirs, and untouched vertices are unchanged. -/
theorem md_fold_zero (h00 h01 h10 h11 : ℚ) {S q nx ny : ℕ}
    (hq2 : q = 2 * (q / 2)) (hmid : 0 < q / 2) (hSx : S < nx) (hSy : S < ny) :
    ∀ (l : List (ℕ × ℕ)) (m : Heightmap) (k : ℕ),
      m.dim = (nx, ny) → m.data.length = nx * ny →
      (∀ p ∈ l, p.1 + q ≤ S ∧ p.2 + q ≤ S ∧ q ∣ p.1 ∧ q ∣ p.2) →
      (∀ x y, q ∣ x → q ∣ y → x ≤ S → y ≤ S →
        m.get x y = bilinearN h00 h01 h10 h11 S x y) →
      (l.foldl (fun s p => md_quad (fun _ => 0) q p.1 p.2 s) ⟨m, k⟩).m.dim =
          (nx, ny) ∧
      (l.foldl (fun s p => md_quad (fun _ => 0) q p.1 p.2 s)
          ⟨m, k⟩).m.data.length = nx * ny ∧
      (∀ x y, q ∣ x → q ∣ y → x ≤ S → y ≤ S →
        (l.foldl (fun s p => md_quad (fun _ => 0) q p.1 p.2 s) ⟨m, k⟩).m.get
          x y = bilinearN h00 h01 h10 h11 S x y) ∧
      (∀ p ∈ l, ∀ t ∈ mdTargets q p,
        (l.foldl (fun s p => md_quad (fun _ => 0) q p.1 p.2 s) ⟨m, k⟩).m.get
          t.1 t.2 = bilinearN h00 h01 h10 h11 S t.1 t.2) ∧
      (∀ x y, x < nx → (x, y) ∉ l.flatMap (mdTargets q) →
        (l.foldl (fun s p => md_quad (fun _ => 0) q p.1 p.2 s) ⟨m, k⟩).m.get
          x y = m.get x y) := by
  intro l
  induction l with
  | nil =>
    intro m k hdim hlen _ hInv
    exact ⟨hdim, hlen, hInv, fun p hp => absurd hp (List.not_mem_nil p),
      fun x y _ _ => rfl⟩
  | cons p rest ih =>
    intro m k hdim hlen hl hInv
    have hp := hl p (List.mem_cons_self p rest)
    obtain ⟨Qdim, Qlen, Qwrites, Quntouched⟩ :=
      md_quad_zero_writes h00 h01 h10 h11 hq2 hmid hSx hSy hdim hlen
        hp.1 hp.2.1 hp.2.2.1 hp.2.2.2 hInv k
    have hQdim : (md_quad (fun _ => 0) q p.1 p.2 ⟨m, k⟩).m.dim = (nx, ny) :=
      Qdim.trans hdim
    have hQlen : (md_quad (fun _ => 0) q p.1 p.2 ⟨m, k⟩).m.data.length =
        nx * ny := Qlen.trans hlen
    have hInv1 : ∀ x y, q ∣ x → q ∣ y → x ≤ S → y ≤ S →
        (md_quad (fun _ => 0) q p.1 p.2 ⟨m, k⟩).m.get x y =
          bilinearN h00 h01 h10 h11 S x y := by
      intro x y hqx hqy hxS hyS
      have hnt : (x, y) ∉ mdTargets q p := by
        intro hmem
        exact mdTargets_not_lattice hq2 hmid hp.2.2.1 hp.2.2.2 hmem ⟨hqx, hqy⟩
      rw [Quntouched x y (by omega) hnt]
      exact hInv x y hqx hqy hxS hyS
    have heta : (md_quad (fun _ => 0) q p.1 p.2 ⟨m, k⟩) =
        ⟨(md_quad (fun _ => 0) q p.1 p.2 ⟨m, k⟩).m,
         (md_quad (fun _ => 0) q p.1 p.2 ⟨m, k⟩).k⟩ := rfl
    obtain ⟨Rdim, Rlen, Rlat, Rwrites, Runtouched⟩ :=
      ih (md_quad (fun _ => 0) q p.1 p.2 ⟨m, k⟩).m
        (md_quad (fun _ => 0) q p.1 p.2 ⟨m, k⟩).k hQdim hQlen
        (fun u hu => hl u (List.mem_cons_of_mem p hu)) hInv1
    rw [List.foldl_cons, heta]
    refine ⟨Rdim, Rlen, Rlat, ?_, ?_⟩
    · intro p' hp' t ht
      rcases List.mem_cons.1 hp' with rfl | hp''
      · by_cases hrest : (t.1, t.2) ∈ rest.flatMap (mdTargets q)
        · simp only [List.mem_flatMap] at hrest
          obtain ⟨p'', hp''mem, htmem⟩ := hrest
          exact Rwrites p'' hp''mem (t.1, t.2) htmem
        · have hb := mdTargets_le hp.1 hp.2.1 ht
          rw [Runtouched t.1 t.2 (by omega) hrest]
          exact Qwrites t ht
      · exact Rwrites p' hp'' t ht
    · intro x y hxnx hnot
      simp only [List.flatMap_cons, List.mem_append, not_or] at hnot
      rw [Runtouched x y hxnx (by simpa using hnot.2)]
      exact Quntouched x y hxnx hnot.1

/-- Any `mid`-lattice vertex that is not a `q`-lattice vertex is one of
the five targets of some quad of the level. -/
theorem mid_lattice_covered {S q : ℕ} (hq2 : q = 2 * (q / 2))
    (hmid : 0 < q / 2) (hqS : q ∣ S) {x y : ℕ} (hdx : q / 2 ∣ x)
    (hdy : q / 2 ∣ y) (hx : x ≤ S) (hy : y ≤ S) (hnl : ¬(q ∣ x ∧ q ∣ y)) :
    ∃ p ∈ quad_origins S q, (x, y) ∈ mdTargets q p := by
  obtain ⟨mid, hq⟩ : ∃ mid, q = 2 * mid := ⟨q / 2, hq2⟩
  subst hq
  have hdiv : 2 * mid / 2 = mid := by omega
  rw [hdiv] at hdx hdy hmid
  obtain ⟨a, rfl⟩ := hdx
  obtain ⟨b, rfl⟩ := hdy
  obtain ⟨N, rfl⟩ := hqS
  have hq0 : 0 < 2 * mid := by omega
  have hSq : 2 * mid * N / (2 * mid) = N := Nat.mul_div_cancel_left N hq0
  have hdvd_iff : ∀ c : ℕ, (2 * mid) ∣ (mid * c) ↔ 2 ∣ c := by
    intro c
    constructor
    · rintro ⟨e, he⟩
      refine ⟨e, ?_⟩
      have h2 : mid * c = mid * (2 * e) := by rw [he]; ring
      exact Nat.eq_of_mul_eq_mul_left hmid h2
    · rintro ⟨e, rfl⟩
      exact ⟨e, by ring⟩
  have hNpos : 0 < N := by
    rcases Nat.eq_zero_or_pos N with rfl | h
    · exfalso
      apply hnl
      have hx0 : mid * a = 0 := by simpa using hx
      have hy0 : mid * b = 0 := by simpa using hy
      rw [hx0, hy0]
      exact ⟨dvd_zero _, dvd_zero _⟩
    · exact h
  have hNsub : (N - 1) * (2 * mid) + 2 * mid = N * (2 * mid) := by
    calc (N - 1) * (2 * mid) + 2 * mid = (N - 1 + 1) * (2 * mid) := by ring
      _ = N * (2 * mid) := by rw [Nat.sub_add_cancel hNpos]
  -- bound helpers: an odd multiple of `mid` below `S` pins its quad index
  have hodd_lt : ∀ u : ℕ, mid * (2 * u + 1) ≤ 2 * mid * N → u < N := by
    intro u hu
    have h1 : mid * (2 * u + 1) ≤ mid * (2 * N) := by
      calc mid * (2 * u + 1) ≤ 2 * mid * N := hu
        _ = mid * (2 * N) := by ring
    have h2 := Nat.le_of_mul_le_mul_left h1 hmid
    omega
  have heven_le : ∀ v : ℕ, mid * (2 * v) ≤ 2 * mid * N → v ≤ N := by
    intro v hv
    have h1 : mid * (2 * v) ≤ mid * (2 * N) := by
      calc mid * (2 * v) ≤ 2 * mid * N := hv
        _ = mid * (2 * N) := by ring
    have h2 := Nat.le_of_mul_le_mul_left h1 hmid
    omega
  by_cases hax : 2 ∣ a
  · -- `x` on the coarse lattice, so `y` must be an odd multiple of `mid`
    obtain ⟨v, rfl⟩ := hax
    have hbodd : ¬2 ∣ b := by
      intro hb2
      exact hnl ⟨(hdvd_iff _).2 ⟨v, rfl⟩, (hdvd_iff _).2 hb2⟩
    obtain ⟨w, rfl⟩ : ∃ w, b = 2 * w + 1 := ⟨b / 2, by omega⟩
    have hwN : w < N := hodd_lt w hy
    have hvN : v ≤ N := heven_le v hx
    have hxv : mid * (2 * v) = v * (2 * mid) := by ring
    have hyw : mid * (2 * w + 1) = w * (2 * mid) + mid := by ring
    rcases Nat.lt_or_ge v N with hvlt | hvge
    · refine ⟨(v * (2 * mid), w * (2 * mid)),
        quad_origins_mem.2 ⟨v, w, by omega, by omega, rfl⟩, ?_⟩
      simp only [mdTargets, List.mem_cons, hdiv]
      left
      rw [hxv, hyw]
    · have hveq : v = N := by omega
      refine ⟨((N - 1) * (2 * mid), w * (2 * mid)),
        quad_origins_mem.2 ⟨N - 1, w, by omega, by omega, rfl⟩, ?_⟩
      simp only [mdTargets, List.mem_cons, hdiv]
      right; left
      rw [hxv, hyw, hveq, ← hNsub]
  · -- `x` is an odd multiple of `mid`
    obtain ⟨u, rfl⟩ : ∃ u, a = 2 * u + 1 := ⟨a / 2, by omega⟩
    have huN : u < N := hodd_lt u hx
    have hxu : mid * (2 * u + 1) = u * (2 * mid) + mid := by ring
    by_cases hby : 2 ∣ b
    · obtain ⟨w, rfl⟩ := hby
      have hwN : w ≤ N := heven_le w hy
      have hyw : mid * (2 * w) = w * (2 * mid) := by ring
      rcases Nat.lt_or_ge w N with hwlt | hwge
      · refine ⟨(u * (2 * mid), w * (2 * mid)),
          quad_origins_mem.2 ⟨u, w, by omega, by omega, rfl⟩, ?_⟩
        simp only [mdTargets, List.mem_cons, hdiv]
        right; right; left
        rw [hxu, hyw]
      · have hweq : w = N := by omega
        refine ⟨(u * (2 * mid), (N - 1) * (2 * mid)),
          quad_origins_mem.2 ⟨u, N - 1, by omega, by omega, rfl⟩, ?_⟩
        simp only [mdTargets, List.mem_cons, hdiv]
        right; right; right; left
        rw [hxu, hyw, hweq, ← hNsub]
    · obtain ⟨w, rfl⟩ : ∃ w, b = 2 * w + 1 := ⟨b / 2, by omega⟩
      have hwN : w < N := hodd_lt w hy
      have hyw : mid * (2 * w + 1) = w * (2 * mid) + mid := by ring
      refine ⟨(u * (2 * mid), w * (2 * mid)),
        quad_origins_mem.2 ⟨u, w, by omega, by omega, rfl⟩, ?_⟩
      simp only [mdTargets, List.mem_cons, hdiv]
      right; right; right; right; left
      rw [hxu, hyw]


/-- One level of zero-sample midpoint displacement refines the lattice on
which the grid agrees with the bilinear interpolant from `q` to `q/2`. -/
theorem md_level_zero_lattice (h00 h01 h10 h11 : ℚ) {S q nx ny : ℕ}
    (hq2 : q = 2 * (q / 2)) (hmid : 0 < q / 2) (hSx : S < nx) (hSy : S < ny)
    (hqS : q ∣ S) (s : GenState)
    (hdim : s.m.dim = (nx, ny)) (hlen : s.m.data.length = nx * ny)
    (hInv : ∀ x y, q ∣ x → q ∣ y → x ≤ S → y ≤ S →
      s.m.get x y = bilinearN h00 h01 h10 h11 S x y) :
    (md_level (fun _ => 0) S q s).m.dim = (nx, ny) ∧
    (md_level (fun _ => 0) S q s).m.data.length = nx * ny ∧
    (∀ x y, q / 2 ∣ x → q / 2 ∣ y → x ≤ S → y ≤ S →
      (md_level (fun _ => 0) S q s).m.get x y =
        bilinearN h00 h01 h10 h11 S x y) := by
  have hl : ∀ p ∈ quad_origins S q,
      p.1 + q ≤ S ∧ p.2 + q ≤ S ∧ q ∣ p.1 ∧ q ∣ p.2 := by
    intro p hp
    obtain ⟨b1, b2⟩ := quad_origins_bound hp
    obtain ⟨qx, qy, _, _, rfl⟩ := quad_origins_mem.1 hp
    exact ⟨b1, b2, dvd_mul_left q qx, dvd_mul_left q qy⟩
  obtain ⟨Hdim, Hlen, Hlat, Hwrites, _⟩ :=
    md_fold_zero h00 h01 h10 h11 hq2 hmid hSx hSy (quad_origins S q)
      s.m s.k hdim hlen hl hInv
  refine ⟨Hdim, Hlen, ?_⟩
  intro x y hdx hdy hxS hyS
  by_cases hql : q ∣ x ∧ q ∣ y
  · exact Hlat x y hql.1 hql.2 hxS hyS
  · obtain ⟨p, hp, ht⟩ := mid_lattice_covered hq2 hmid hqS hdx hdy hxS hyS hql
    exact Hwrites p hp (x, y) ht

/-- Iterating zero-sample levels from skip level `0` drives the agreement
lattice down to every vertex. -/
theorem md_levels_zero_bilinear (h00 h01 h10 h11 : ℚ) {nx ny n : ℕ}
    (hSx : 2 ^ n < nx) (hSy : 2 ^ n < ny) :
    ∀ fuel i (s : GenState), fuel + i = n →
      s.m.dim = (nx, ny) → s.m.data.length = nx * ny →
      (∀ x y, 2 ^ (n - i) ∣ x → 2 ^ (n - i) ∣ y → x ≤ 2 ^ n → y ≤ 2 ^ n →
        s.m.get x y = bilinearN h00 h01 h10 h11 (2 ^ n) x y) →
      ∀ x y, x ≤ 2 ^ n → y ≤ 2 ^ n →
        (md_levels (fun _ => 0) (2 ^ n) n fuel i s).m.get x y =
          bilinearN h00 h01 h10 h11 (2 ^ n) x y := by
  intro fuel
  induction fuel with
  | zero =>
    intro i s hfi hdim hlen hInv x y hx hy
    have hni : n - i = 0 := by omega
    refine hInv x y ?_ ?_ hx hy
    · rw [hni]
      exact one_dvd x
    · rw [hni]
      exact one_dvd y
  | succ f ih =>
    intro i s hfi hdim hlen hInv
    rw [md_levels]
    have hin : i < n := by omega
    have hnie : n - i = (n - i - 1) + 1 := by omega
    have hqe : (2 : ℕ) ^ (n - i) = 2 * 2 ^ (n - i - 1) := by
      conv_lhs => rw [hnie]
      rw [pow_succ]
      ring
    have hdiv2 : (2 : ℕ) ^ (n - i) / 2 = 2 ^ (n - i - 1) := by
      rw [hqe]
      omega
    have hq2 : (2 : ℕ) ^ (n - i) = 2 * (2 ^ (n - i) / 2) := by
      rw [hdiv2]
      exact hqe
    have hmid : 0 < (2 : ℕ) ^ (n - i) / 2 := by
      rw [hdiv2]
      positivity
    have hqS : (2 : ℕ) ^ (n - i) ∣ 2 ^ n := pow_dvd_pow 2 (by omega)
    obtain ⟨Hdim, Hlen, Hlat⟩ := md_level_zero_lattice h00 h01 h10 h11 hq2
      hmid hSx hSy hqS s hdim hlen hInv
    refine ih (i + 1) _ (by omega) Hdim Hlen ?_
    intro x y hdx hdy hx hy
    have he1 : n - (i + 1) = n - i - 1 := by omega
    refine Hlat x y ?_ ?_ hx hy
    · rw [hdiv2, ← he1]
      exact hdx
    · rw [hdiv2, ← he1]
      exact hdy

/-- C4 (amended): on a square grid of side `2^n + 1` with arbitrarily
seeded corners and arbitrary interior, `midpoint_displacement` with skip
level `0` and the constant-zero distribution sets **every** vertex to the
exact bilinear interpolation of the four corner values.  (The same is
false of `diamond_square`, whose 3-way boundary averages deviate — see
the counterexample.) -/
theorem midpoint_displacement_bilinear (k : ℕ) (hk : k < 64)
    (m : Heightmap) (hdim : m.dim = (2 ^ k + 1, 2 ^ k + 1))
    (hlen : m.data.length = (2 ^ k + 1) * (2 ^ k + 1))
    (m' : Heightmap) (hok : midpoint_displacement m 0 (fun _ => 0) = .ok m')
    (x y : ℕ) (hx : x ≤ 2 ^ k) (hy : y ≤ 2 ^ k) :
    m'.get x y = bilinearN (m.get 0 0) (m.get 0 (2 ^ k)) (m.get (2 ^ k) 0)
      (m.get (2 ^ k) (2 ^ k)) (2 ^ k) x y := by
  have hlen0 : m.len0 = 2 ^ k + 1 := by
    rw [Heightmap.len0, hdim]
  have hlen1 : m.len1 = 2 ^ k + 1 := by
    rw [Heightmap.len1, hdim]
  have hchk : disp_check m.len0 m.len1 = none := by
    rw [hlen0, hlen1]
    exact disp_check_pow2 hk
  have hS1 : m.len0 - 1 = 2 ^ k := by
    rw [hlen0]
    simp
  have htz : trailing_zeros64 (m.len0 - 1) = k := by
    rw [hS1]
    exact trailing_zeros64_two_pow hk
  have h2 : midpoint_displacement m 0 (fun _ => 0) =
      (match disp_check m.len0 m.len1 with
       | some e => Except.error e
       | none => Except.ok (md_levels (fun _ => 0) (m.len0 - 1)
           (trailing_zeros64 (m.len0 - 1)) (trailing_zeros64 (m.len0 - 1) - 0)
           0 ⟨m, 0⟩).m) := rfl
  rw [h2, hchk] at hok
  have hok3 : (md_levels (fun _ => 0) (m.len0 - 1)
      (trailing_zeros64 (m.len0 - 1)) (trailing_zeros64 (m.len0 - 1) - 0)
      0 ⟨m, 0⟩).m = m' := Except.ok.inj hok
  rw [hS1, trailing_zeros64_two_pow hk, Nat.sub_zero] at hok3
  rw [← hok3]
  have hS0 : (2 : ℕ) ^ k ≠ 0 := by positivity
  obtain ⟨c00, c01, c10, c11⟩ :=
    bilinearN_corners (m.get 0 0) (m.get 0 (2 ^ k)) (m.get (2 ^ k) 0)
      (m.get (2 ^ k) (2 ^ k)) hS0
  have hinit : ∀ u w, 2 ^ (k - 0) ∣ u → 2 ^ (k - 0) ∣ w → u ≤ 2 ^ k →
      w ≤ 2 ^ k → m.get u w = bilinearN (m.get 0 0) (m.get 0 (2 ^ k))
        (m.get (2 ^ k) 0) (m.get (2 ^ k) (2 ^ k)) (2 ^ k) u w := by
    intro u w hdu hdw huS hwS
    rw [Nat.sub_zero] at hdu hdw
    have hu : u = 0 ∨ u = 2 ^ k := by
      rcases Nat.eq_zero_or_pos u with rfl | hupos
      · exact Or.inl rfl
      · have := Nat.le_of_dvd hupos hdu
        omega
    have hw : w = 0 ∨ w = 2 ^ k := by
      rcases Nat.eq_zero_or_pos w with rfl | hwpos
      · exact Or.inl rfl
      · have := Nat.le_of_dvd hwpos hdw
        omega
    rcases hu with rfl | rfl <;> rcases hw with rfl | rfl
    · exact c00.symm
    · exact c01.symm
    · exact c10.symm
    · exact c11.symm
  exact md_levels_zero_bilinear (m.get 0 0) (m.get 0 (2 ^ k))
    (m.get (2 ^ k) 0) (m.get (2 ^ k) (2 ^ k)) (by omega) (by omega)
    k 0 ⟨m, 0⟩ (by omega) hdim hlen hinit x y hx hy

/-- Witness for the amended C4 on the concrete 3×3 grid `g3` (corners
`0, 0, 2, 2`, interpolant `B(x, y) = x`) at the vertex `(1, 0)`. -/
theorem midpoint_displacement_bilinear_witness :
    ∃ m', midpoint_displacement g3 0 (fun _ => 0) = .ok m' ∧
      m'.get 1 0 = bilinearN (g3.get 0 0) (g3.get 0 (2 ^ 1)) (g3.get (2 ^ 1) 0)
        (g3.get (2 ^ 1) (2 ^ 1)) (2 ^ 1) 1 0 := by
  refine ⟨_, rfl, ?_⟩
  exact midpoint_displacement_bilinear 1 (by norm_num) g3 (by norm_num [g3])
    (by norm_num [g3]) _ rfl 1 0 (by norm_num) (by norm_num)

/-- Counterexample to C4 as stated: `diamond_square` with the zero
distribution on the 3×3 grid `g3` leaves vertex `(0, 1)` at `1/3` — the
3-way boundary average `(h00 + h01 + centre)/3` — whereas the bilinear
interpolation of the corners there is `0`. -/
theorem diamond_square_not_bilinear_cex :
    ∃ m', diamond_square g3 0 (fun _ => 0) = .ok m' ∧
      m'.get 0 1 = 1 / 3 ∧
      bilinearN (g3.get 0 0) (g3.get 0 (2 ^ 1)) (g3.get (2 ^ 1) 0)
        (g3.get (2 ^ 1) (2 ^ 1)) (2 ^ 1) 0 1 = 0 ∧
      (1 / 3 : ℚ) ≠ 0 := by
  refine ⟨_, rfl, ?_, ?_, by norm_num⟩
  · show (ds_levels (fun _ => 0) 2 1 (0 + 1) 0 ⟨g3, 0⟩).m.get 0 1 = 1 / 3
    rw [ds_levels, ds_levels]
    norm_num only [ds_level, ds_col, ds_quad, ds_colEnd, ds_rowEnd,
      ds_rowEndStep, List.range_succ, Heightmap.get, Heightmap.set, g3,
      List.set, List.getD, mid3, mid4, List.range_zero, List.map_cons,
      List.map_nil, List.foldl_cons, List.foldl_nil, List.nil_append,
      List.cons_append, List.getElem?_cons_zero, List.getElem?_cons_succ,
      Option.getD_some, Option.getD_none, mul_zero, add_zero, zero_add,
      Nat.reduceAdd, Nat.reduceMul, Nat.reduceSub, Nat.reducePow,
      Nat.reduceDiv]
    norm_num [List.getD]
  · norm_num [bilinearN, bilinear, g3, Heightmap.get, List.getD]

end Terr
